import Mathlib

/-!
Verification of the outline extraction / edit / reconciliation core of
src/main.ts (an Obsidian outline-editor plugin).

The TypeScript source is shallowly embedded: every JavaScript string
primitive the core uses (split on newline, join with newline, trim,
character repeat, and the four regular expressions) is modelled as an
explicit executable function on strings viewed as character lists, and
each method of OutlineEditorModal that the claims mention is translated
into a Lean definition of the same name.
-/

namespace OutlineEditor

/-- Characters matched by the JavaScript whitespace class (backslash-s) and
trimmed by String.prototype.trim: tab, LF, VT, FF, CR, space, NBSP, and the
Unicode space separators, line/paragraph separators and BOM. -/
def isJsWs (c : Char) : Bool :=
  c.toNat = 9 || c.toNat = 10 || c.toNat = 11 || c.toNat = 12 || c.toNat = 13 ||
  c.toNat = 32 || c.toNat = 0xa0 || c.toNat = 0x1680 ||
  (0x2000 ≤ c.toNat && c.toNat ≤ 0x200a) || c.toNat = 0x2028 || c.toNat = 0x2029 ||
  c.toNat = 0x202f || c.toNat = 0x205f || c.toNat = 0x3000 || c.toNat = 0xfeff

/-- Model of JavaScript String.prototype.trim on a character list. -/
def jsTrimList (cs : List Char) : List Char :=
  ((cs.dropWhile isJsWs).reverse.dropWhile isJsWs).reverse

/-- Model of JavaScript String.prototype.trim. -/
def jsTrim (s : String) : String :=
  String.mk (jsTrimList s.data)

/-- Model of JavaScript String.prototype.split with separator "\n", on a
character list: "".split gives [""], and a trailing newline yields a final
empty piece, exactly as in JavaScript. -/
def splitLinesList : List Char → List (List Char)
  | [] => [[]]
  | c :: t =>
    if c = '\n' then [] :: splitLinesList t
    else
      match splitLinesList t with
      | [] => [[c]]
      | ls :: rest => (c :: ls) :: rest

/-- Model of content.split for the newline separator used throughout main.ts. -/
def splitNewlines (s : String) : List String :=
  (splitLinesList s.data).map String.mk

/-- Model of JavaScript Array.prototype.join with separator "\n". -/
def joinLines : List String → String
  | [] => ""
  | [l] => l
  | l :: l2 :: ls => l ++ "\n" ++ joinLines (l2 :: ls)

/-- Decimal digit characters of a natural number, most significant first.
This is the reference form of what Nat.toDigitsCore computes; it models the
decimal rendering used by the template literal building heading ids. -/
def natChars (n : Nat) : List Char :=
  if n < 10 then [Nat.digitChar n] else natChars (n / 10) ++ [Nat.digitChar (n % 10)]
decreasing_by exact Nat.div_lt_self (by omega) (by omega)

/-- Numeric value of a decimal digit character. -/
def chVal (c : Char) : Nat := c.toNat - 48

/-- Reads a decimal digit string back into a number; used to show that
distinct heading counters yield distinct ids. -/
def ofChars (cs : List Char) : Nat := cs.foldl (fun a c => a * 10 + chVal c) 0

/-- The HeadingInfo record of main.ts. -/
structure HeadingInfo where
  level : Nat
  text : String
  line : Nat
  originalLine : String
  id : String
deriving DecidableEq

/-- Model of testing one line against the anchored regex of parseHeadings -
one to six hash marks, then at least one whitespace character, then at least
one more character - and extracting the captured level and text. The hash
run is matched greedily and, since a marker is not whitespace, the match
exists exactly when the full leading hash run has length one to six; the
whitespace run is matched greedily but backtracks to leave at least one
character for the final capture, which keeps any trailing whitespace. -/
def parseHeadingLine (line : String) : Option (Nat × String) :=
  let cs := line.data
  let m := (cs.takeWhile (fun c => c = '#')).length
  let rest := cs.drop m
  let w := (rest.takeWhile isJsWs).length
  if 1 ≤ m ∧ m ≤ 6 ∧ 1 ≤ w ∧ 2 ≤ rest.length then
    some (m, String.mk (rest.drop (min w (rest.length - 1))))
  else none

/-- The indexed loop body of parseHeadings: idx is the current line index and
counter the number of headings found so far. -/
def parseHeadingsAux : List String → Nat → Nat → List HeadingInfo
  | [], _, _ => []
  | l :: ls, idx, counter =>
    match parseHeadingLine l with
    | some lt =>
        { level := lt.1, text := lt.2, line := idx, originalLine := l,
          id := "H" ++ Nat.repr (counter + 1) } :: parseHeadingsAux ls (idx + 1) (counter + 1)
    | none => parseHeadingsAux ls (idx + 1) counter

/-- OutlineEditorModal.parseHeadings as a pure function of the document text. -/
def parseHeadings (content : String) : List HeadingInfo :=
  parseHeadingsAux (splitNewlines content) 0 0

/-- Model of the JavaScript string repeat building a marker run. -/
def hashRun (n : Nat) : String := String.mk (List.replicate n '#')

/-- One line of the editable outline built in onOpen: id, bar, marker run,
space, text. -/
def outlineLine (h : HeadingInfo) : String :=
  h.id ++ "|" ++ hashRun h.level ++ " " ++ h.text

/-- The editable outline text assembled in onOpen. -/
def outlineText (hs : List HeadingInfo) : String :=
  joinLines (hs.map outlineLine)

/-- Model of the per-line id stripping in enhanceWithAI: a line matching the
anchored pattern capital H, one or more digits, a bar, then at least one
character, is replaced by the capture after the bar; any other line is passed
through unchanged. -/
def stripLineId (line : String) : String :=
  match line.data with
  | 'H' :: t =>
    let ds := t.takeWhile Char.isDigit
    if ds.length = 0 then line
    else
      match t.drop ds.length with
      | '|' :: r => if r.length = 0 then line else String.mk r
      | _ => line
  | _ => line

/-- The bare outline lines sent to the external service in enhanceWithAI. -/
def bareLines (lines : List String) : List String := lines.map stripLineId

/-- The bare outline string sent to the external service (split, strip each
line, join). -/
def currentOutline (text : String) : String :=
  joinLines (bareLines (splitNewlines text))

/-- Model of the unanchored-tail pattern used by matchHeadingsWithIds: capital
H followed by one or more digits followed by a bar at the start of a line;
returns the captured id. -/
def lineIdOf (line : String) : Option String :=
  match line.data with
  | 'H' :: t =>
    let ds := t.takeWhile Char.isDigit
    if ds.length = 0 then none
    else
      match t.drop ds.length with
      | '|' :: _ => some (String.mk ('H' :: ds))
      | _ => none
  | _ => none

/-- The loop of matchHeadingsWithIds: oi is the mutable originalIndex, which
the source advances only inside the branch where the original line carries an
id. -/
def matchAuxIdx (originalLines : List String) : Nat → List String → List String
  | _, [] => []
  | oi, e :: es =>
    match originalLines.get? oi with
    | some o =>
      match lineIdOf o with
      | some i => (i ++ "|" ++ e) :: matchAuxIdx originalLines (oi + 1) es
      | none => e :: matchAuxIdx originalLines oi es
    | none => ("NEW|" ++ e) :: matchAuxIdx originalLines oi es

/-- OutlineEditorModal.matchHeadingsWithIds. -/
def matchHeadingsWithIds (originalLines enhancedLines : List String) : List String :=
  matchAuxIdx originalLines 0 enhancedLines

/-- The alignment stated by the claim: the i-th enhanced line is paired with
the i-th original line. Written from the claim text, to be compared with the
source function. -/
def matchSpecClaim (originalLines enhancedLines : List String) : List String :=
  (List.range enhancedLines.length).map fun i =>
    let e := enhancedLines.getD i ""
    match originalLines.get? i with
    | some o =>
      match lineIdOf o with
      | some i2 => i2 ++ "|" ++ e
      | none => e
    | none => "NEW|" ++ e

/-- Closed form of what the source actually computes: with k the length of the
leading run of id-carrying original lines, the first k enhanced lines reuse
those ids pairwise; if some original line lacks an id the pointer sticks there
and every later enhanced line is emitted bare; only when every original line
carries an id are surplus enhanced lines tagged NEW. -/
def matchSpecAmended (originalLines enhancedLines : List String) : List String :=
  let k := (originalLines.takeWhile (fun l => (lineIdOf l).isSome)).length
  (List.zipWith (fun o e => (lineIdOf o).getD "" ++ "|" ++ e)
      (originalLines.take k) (enhancedLines.take k)) ++
    (if k < originalLines.length then enhancedLines.drop k
     else (enhancedLines.drop k).map (fun e => "NEW|" ++ e))

/-- One parsed entry of the edited outline in applyChanges. -/
structure EditedHeading where
  id : String
  level : Nat
  text : String
deriving DecidableEq

/-- Model of the leading alternation of the applyChanges line pattern: either
capital H plus digits, or the literal NEW, followed by a bar. Returns the id
and the remaining characters. -/
def parseIdBar (cs : List Char) : Option (String × List Char) :=
  match cs with
  | 'H' :: t =>
    let ds := t.takeWhile Char.isDigit
    if ds.length = 0 then none
    else
      match t.drop ds.length with
      | '|' :: rest => some (String.mk ('H' :: ds), rest)
      | _ => none
  | 'N' :: 'E' :: 'W' :: '|' :: rest => some ("NEW", rest)
  | _ => none

/-- Model of the applyChanges line pattern after the bar: any run of
whitespace, then one to six hash marks, then at least one whitespace
character, then at least one character, the capture being trimmed. The
leading whitespace run and the hash run are matched greedily with no
effective backtracking, as in parseHeadingLine. -/
def parseEditedBody (rest : List Char) : Option (Nat × String) :=
  let afterBar := rest.dropWhile isJsWs
  let m := (afterBar.takeWhile (fun c => c = '#')).length
  let body := afterBar.drop m
  let w := (body.takeWhile isJsWs).length
  if 1 ≤ m ∧ m ≤ 6 ∧ 1 ≤ w ∧ 2 ≤ body.length then
    some (m, jsTrim (String.mk (body.drop (min w (body.length - 1)))))
  else none

/-- Model of testing one line of the edited outline against the applyChanges
pattern: id alternation, bar, then the body pattern, yielding id, level and
trimmed text. -/
def parseEditedLine (line : String) : Option EditedHeading :=
  match parseIdBar line.data with
  | none => none
  | some (i, rest) =>
    match parseEditedBody rest with
    | none => none
    | some (m, t) => some { id := i, level := m, text := t }

/-- A heading line rebuilt by applyChanges: marker run, space, text. -/
def rebuildLine (level : Nat) (text : String) : String :=
  hashRun level ++ " " ++ text

/-- The editedHeadings array of applyChanges: parse every line, silently
dropping lines that do not match the pattern. -/
def editedHeadingsOf (editedLines : List String) : List EditedHeading :=
  editedLines.filterMap parseEditedLine

/-- The newHeadings array: entries whose id is the literal NEW, in order. -/
def newHeadingsOf (es : List EditedHeading) : List EditedHeading :=
  es.filter (fun e => e.id = "NEW")

/-- Lookup in the editMap built by applyChanges: the map holds the non-NEW
entries keyed by id, later insertions overwriting earlier ones, so a lookup
returns the last non-NEW entry carrying the id. -/
def editMapFind (es : List EditedHeading) (i : String) : Option EditedHeading :=
  ((es.filter (fun e => ¬ e.id = "NEW")).reverse).find? (fun e => e.id = i)

/-- Size of the editMap: the number of distinct non-NEW ids among the parsed
entries. -/
def editMapSize (es : List EditedHeading) : Nat :=
  (((es.filter (fun e => ¬ e.id = "NEW")).map (fun e => e.id)).dedup).length

/-- Membership in the editedIds set of applyChanges. -/
def hasEditedId (es : List EditedHeading) (i : String) : Bool :=
  es.any (fun e => e.id = i)

/-- Size of the deletedIds set: distinct original ids missing from the edited
entries. -/
def deletedCount (hs : List HeadingInfo) (es : List EditedHeading) : Nat :=
  (((hs.map (fun h => h.id)).dedup).filter (fun i => ¬ (hasEditedId es i : Bool) = true)).length

/-- The update-or-mark loop of applyChanges. The state is the current line
array, the accumulated linesToRemove, and the changesMade flag. A heading
whose id is absent from the edited entries is marked for removal; otherwise,
when the editMap holds its id and the rebuilt line differs from the line
currently at its index, that line is overwritten in place. List.set ignores
an out-of-range index; headings produced by parseHeadings always carry
in-range indices. -/
def applyLoop (es : List EditedHeading) :
    List HeadingInfo → List String × List Nat × Bool → List String × List Nat × Bool
  | [], st => st
  | h :: t, (lines, rem, ch) =>
    if hasEditedId es h.id then
      match editMapFind es h.id with
      | some e =>
        let nl := rebuildLine e.level e.text
        if lines[h.line]? = some nl then applyLoop es t (lines, rem, ch)
        else applyLoop es t (lines.set h.line nl, rem, true)
      | none => applyLoop es t (lines, rem, ch)
    else applyLoop es t (lines, rem ++ [h.line], true)

/-- The effect of one iteration of the update-or-mark loop on the line array
alone. -/
def applyStep (es : List EditedHeading) (ls : List String) (h : HeadingInfo) : List String :=
  if hasEditedId es h.id then
    match editMapFind es h.id with
    | some e =>
      if ls[h.line]? = some (rebuildLine e.level e.text) then ls
      else ls.set h.line (rebuildLine e.level e.text)
    | none => ls
  else ls

/-- Insertion step of the descending numeric sort used on linesToRemove. -/
def insertDesc (x : Nat) : List Nat → List Nat
  | [] => [x]
  | y :: ys => if y ≤ x then x :: y :: ys else y :: insertDesc x ys

/-- The descending numeric sort applied to linesToRemove before splicing. -/
def sortDesc (xs : List Nat) : List Nat := xs.foldr insertDesc []

/-- The splice loop: remove the element at each listed index in turn.
List.eraseIdx, like splice with one deleted element, ignores an out-of-range
index. -/
def removeDescending (lines : List String) (idxs : List Nat) : List String :=
  idxs.foldl (fun ls i => ls.eraseIdx i) lines

/-- The state of applyChanges after the update-or-mark loop. -/
def applyLinesCore (hs : List HeadingInfo) (es : List EditedHeading)
    (docLines : List String) : List String × List Nat × Bool :=
  applyLoop es hs (docLines, [], false)

/-- The document line array after the marked lines have been spliced out in
descending index order. -/
def linesAfterRemoval (hs : List HeadingInfo) (es : List EditedHeading)
    (docLines : List String) : List String :=
  let st := applyLinesCore hs es docLines
  removeDescending st.1 (sortDesc st.2.1)

/-- The final line array produced by applyChanges: updates and removals
applied, then every NEW entry rebuilt and appended at the end in order. -/
def applyLines (hs : List HeadingInfo) (editedLines : List String)
    (docLines : List String) : List String :=
  let es := editedHeadingsOf editedLines
  linesAfterRemoval hs es docLines ++
    (newHeadingsOf es).map (fun e => rebuildLine e.level e.text)

/-- Observable outcome of applyChanges: the resulting document text, whether
the editor was rewritten, and the three counts shown in the notice. -/
structure ApplyResult where
  text : String
  changed : Bool
  modified : Nat
  removed : Nat
  added : Nat
deriving DecidableEq

/-- OutlineEditorModal.applyChanges given the already split and blank-filtered
edited lines. When changesMade stays false the editor is not rewritten, so
the text component is the original content. -/
def applyChangesFromLines (hs : List HeadingInfo) (editedLines : List String)
    (content : String) : ApplyResult :=
  let docLines := splitNewlines content
  let es := editedHeadingsOf editedLines
  let st := applyLinesCore hs es docLines
  let news := newHeadingsOf es
  let changed := st.2.2 || decide (0 < news.length)
  { text := if changed then joinLines (applyLines hs editedLines docLines) else content
    changed := changed
    modified := editMapSize es
    removed := deletedCount hs es
    added := news.length }

/-- OutlineEditorModal.applyChanges: the edited text is split on newlines and
blank lines are dropped, then reconciled against the current document text. -/
def applyChanges (hs : List HeadingInfo) (editedText : String)
    (content : String) : ApplyResult :=
  applyChangesFromLines hs
    ((splitNewlines editedText).filter (fun l => ¬ jsTrim l = "")) content

/-- The line indices marked for removal: indices of headings whose id occurs
in no parsed edited entry, in heading order. -/
def linesToRemove (hs : List HeadingInfo) (es : List EditedHeading) : List Nat :=
  (hs.filter (fun h => ¬ (hasEditedId es h.id : Bool) = true)).map (fun h => h.line)

/-- Reference form of index removal: keep exactly the positions not listed in
rem, scanning from position j. -/
def keepAux (rem : List Nat) : List String → Nat → List String
  | [], _ => []
  | l :: ls, j => if j ∈ rem then keepAux rem ls (j + 1) else l :: keepAux rem ls (j + 1)

/-- Reference form of the in-place update: the line at index j is rewritten
exactly when a heading lives at j, its id survives in the edited entries, and
the editMap holds it. -/
def updLine (hs : List HeadingInfo) (es : List EditedHeading) (j : Nat) (l : String) : String :=
  match hs.find? (fun h => h.line = j) with
  | some h =>
    if hasEditedId es h.id then
      match editMapFind es h.id with
      | some e => rebuildLine e.level e.text
      | none => l
    else l
  | none => l

/-- Reference form of the update pass applied position by position from j. -/
def updAux (hs : List HeadingInfo) (es : List EditedHeading) : List String → Nat → List String
  | [], _ => []
  | l :: ls, j => updLine hs es j l :: updAux hs es ls (j + 1)

/-- A line of the edited outline that parses as a NEW entry. -/
def isNewEntryLine (l : String) : Bool :=
  match parseEditedLine l with
  | some e => e.id = "NEW"
  | none => false

/-! ### Decimal representation of heading counters -/

theorem toDigitsCore_eq_natChars (fuel : Nat) : ∀ (n : Nat) (ds : List Char), n < fuel →
    Nat.toDigitsCore 10 fuel n ds = natChars n ++ ds := by
  induction fuel with
  | zero => intro n ds h; omega
  | succ f ih =>
    intro n ds h
    by_cases h0 : n / 10 = 0
    · have hn : n < 10 := by omega
      simp [Nat.toDigitsCore, h0, natChars, hn, Nat.mod_eq_of_lt hn]
    · have hn : ¬ n < 10 := by omega
      have hlt : n / 10 < f := by omega
      rw [show Nat.toDigitsCore 10 (f + 1) n ds =
            Nat.toDigitsCore 10 f (n / 10) (Nat.digitChar (n % 10) :: ds) by
          simp [Nat.toDigitsCore, h0],
        ih (n / 10) _ hlt]
      conv_rhs => rw [natChars]
      simp [hn]

theorem repr_eq_natChars (n : Nat) : Nat.repr n = String.mk (natChars n) := by
  unfold Nat.repr Nat.toDigits
  rw [toDigitsCore_eq_natChars (n + 1) n [] (Nat.lt_succ_self n)]
  simp [List.asString]

theorem chVal_digitChar (d : Nat) (h : d < 10) : chVal (Nat.digitChar d) = d := by
  interval_cases d <;> rfl

theorem isDigit_digitChar (d : Nat) (h : d < 10) : (Nat.digitChar d).isDigit = true := by
  interval_cases d <;> rfl

theorem natChars_ne_nil (n : Nat) : natChars n ≠ [] := by
  rw [natChars]
  split <;> simp

theorem natChars_digits (n : Nat) : ∀ c ∈ natChars n, c.isDigit = true := by
  induction n using Nat.strong_induction_on with
  | _ n ih =>
    rw [natChars]
    split
    · next hn => simpa using isDigit_digitChar n hn
    · next hn =>
      intro c hc
      rcases List.mem_append.mp hc with hc | hc
      · exact ih (n / 10) (Nat.div_lt_self (by omega) (by omega)) c hc
      · simp only [List.mem_singleton] at hc
        subst hc
        exact isDigit_digitChar _ (Nat.mod_lt n (by omega))

theorem ofChars_natChars (n : Nat) : ofChars (natChars n) = n := by
  induction n using Nat.strong_induction_on with
  | _ n ih =>
    rw [natChars]
    split
    · next hn => simp [ofChars, chVal_digitChar n hn]
    · next hn =>
      have hrec := ih (n / 10) (Nat.div_lt_self (by omega) (by omega))
      simp only [ofChars, List.foldl_append, List.foldl_cons, List.foldl_nil] at hrec ⊢
      rw [hrec, chVal_digitChar _ (Nat.mod_lt n (by omega))]
      omega

theorem natChars_injective {m n : Nat} (h : natChars m = natChars n) : m = n := by
  have := congrArg ofChars h
  rwa [ofChars_natChars, ofChars_natChars] at this

theorem hid_data (k : Nat) : ("H" ++ Nat.repr k).data = 'H' :: natChars k := by
  rw [repr_eq_natChars]
  rfl

theorem hid_injective {a b : Nat} (h : "H" ++ Nat.repr a = "H" ++ Nat.repr b) : a = b := by
  have h2 := congrArg String.data h
  rw [hid_data, hid_data] at h2
  exact natChars_injective (List.cons_injective h2)

theorem hid_ne_NEW (k : Nat) : "H" ++ Nat.repr k ≠ "NEW" := by
  intro h
  have h2 : 'H' :: natChars k = ['N', 'E', 'W'] := by
    simpa [hid_data] using congrArg String.data h
  simp at h2

/-! ### List and string helpers -/

theorem takeWhile_append_run {p : Char → Bool} {xs : List Char} {y : Char} (ys : List Char)
    (hx : ∀ c ∈ xs, p c = true) (hy : p y = false) :
    (xs ++ y :: ys).takeWhile p = xs := by
  induction xs with
  | nil => simp [List.takeWhile, hy]
  | cons x t ih =>
    have hxp : p x = true := hx x (by simp)
    have ht := ih (fun c hc => hx c (by simp [hc]))
    simp [List.takeWhile_cons, hxp, ht]

theorem dropWhile_append_run {p : Char → Bool} {xs : List Char} {y : Char} (ys : List Char)
    (hx : ∀ c ∈ xs, p c = true) (hy : p y = false) :
    (xs ++ y :: ys).dropWhile p = y :: ys := by
  induction xs with
  | nil => simp [List.dropWhile, hy]
  | cons x t ih =>
    have hxp : p x = true := hx x (by simp)
    have ht := ih (fun c hc => hx c (by simp [hc]))
    simp [List.dropWhile_cons, hxp, ht]

theorem dropWhile_shape (p : Char → Bool) (l : List Char) :
    l.dropWhile p = [] ∨ ∃ c t, l.dropWhile p = c :: t ∧ p c = false := by
  induction l with
  | nil => exact Or.inl rfl
  | cons x t ih =>
    by_cases hx : p x
    · simpa [List.dropWhile, hx] using ih
    · exact Or.inr ⟨x, t, by simp [List.dropWhile, hx], by simpa using hx⟩

theorem length_takeWhile_add_dropWhile (p : Char → Bool) (l : List Char) :
    (l.takeWhile p).length + (l.dropWhile p).length = l.length := by
  conv_rhs => rw [← List.takeWhile_append_dropWhile p l, List.length_append]

theorem takeWhile_eq_self_of_length (p : Char → Bool) (l : List Char)
    (h : (l.takeWhile p).length = l.length) : ∀ c ∈ l, p c = true := by
  have heq : l.takeWhile p = l := (List.takeWhile_prefix p).eq_of_length h
  intro c hc
  rw [← heq] at hc
  exact List.mem_takeWhile_imp hc

theorem jsTrimList_cons_ne_nil {c : Char} (t : List Char) (hc : isJsWs c = false) :
    jsTrimList (c :: t) ≠ [] := by
  intro h
  unfold jsTrimList at h
  rw [List.dropWhile_cons_of_neg (by simp [hc])] at h
  have h2 : (c :: t).reverse.dropWhile isJsWs = [] := by
    simpa using congrArg List.reverse h
  rw [List.dropWhile_eq_nil_iff] at h2
  exact absurd (h2 c (by simp)) (by simp [hc])

/-! ### Splitting and joining lines -/

theorem splitLinesList_no_newline (xs : List Char) (hx : '\n' ∉ xs) :
    splitLinesList xs = [xs] := by
  induction xs with
  | nil => rfl
  | cons c t ih =>
    have hc : ¬ c = '\n' := fun h => hx (by simp [h])
    have ht := ih (fun h => hx (by simp [h]))
    simp [splitLinesList, hc, ht]

theorem splitLinesList_append_newline (xs : List Char) (hx : '\n' ∉ xs) (ys : List Char) :
    splitLinesList (xs ++ '\n' :: ys) = xs :: splitLinesList ys := by
  induction xs with
  | nil => simp [splitLinesList]
  | cons c t ih =>
    have hc : ¬ c = '\n' := fun h => hx (by simp [h])
    have ht := ih (fun h => hx (by simp [h]))
    show splitLinesList (c :: (t ++ '\n' :: ys)) = _
    simp only [splitLinesList]
    rw [if_neg hc, ht]

theorem mem_splitLinesList_no_newline (xs : List Char) :
    ∀ p ∈ splitLinesList xs, '\n' ∉ p := by
  induction xs with
  | nil => simp [splitLinesList]
  | cons c t ih =>
    by_cases hc : c = '\n'
    · simpa [splitLinesList, hc] using ih
    · intro p hp
      rw [splitLinesList] at hp
      simp only [if_neg hc] at hp
      rcases hls : splitLinesList t with _ | ⟨l0, rest⟩
      · simp [hls] at hp
        subst hp
        simp only [List.mem_singleton]
        exact fun h => hc h.symm
      · rw [hls] at hp
        rcases List.mem_cons.mp hp with hp | hp
        · subst hp
          intro hmem
          rcases List.mem_cons.mp hmem with h | h
          · exact hc h.symm
          · exact ih l0 (by simp [hls]) h
        · exact ih p (by simp [hls, hp])

theorem data_joinLines_cons (l l2 : String) (ls : List String) :
    (joinLines (l :: l2 :: ls)).data = l.data ++ '\n' :: (joinLines (l2 :: ls)).data := by
  show (l ++ "\n" ++ joinLines (l2 :: ls)).data = _
  simp [String.data_append]

theorem splitNewlines_joinLines (ls : List String) (hnl : ∀ l ∈ ls, '\n' ∉ l.data)
    (hne : ls ≠ []) : splitNewlines (joinLines ls) = ls := by
  induction ls with
  | nil => exact absurd rfl hne
  | cons l rest ih =>
    rcases rest with _ | ⟨l2, rest2⟩
    · show (splitLinesList l.data).map String.mk = [l]
      rw [splitLinesList_no_newline l.data (hnl l (by simp))]
      rfl
    · show (splitLinesList (joinLines (l :: l2 :: rest2)).data).map String.mk = _
      rw [data_joinLines_cons, splitLinesList_append_newline _ (hnl l (by simp))]
      have ihr : splitNewlines (joinLines (l2 :: rest2)) = l2 :: rest2 :=
        ih (fun x hx => hnl x (by simp [hx])) (by simp)
      show String.mk l.data :: (splitLinesList (joinLines (l2 :: rest2)).data).map String.mk = _
      rw [show (splitLinesList (joinLines (l2 :: rest2)).data).map String.mk =
            splitNewlines (joinLines (l2 :: rest2)) from rfl, ihr]

theorem drop_length_takeWhile (p : Char → Bool) (l : List Char) :
    l.drop (l.takeWhile p).length = l.dropWhile p := by
  induction l with
  | nil => rfl
  | cons c t ih =>
    by_cases hc : p c
    · simp [List.takeWhile_cons, List.dropWhile_cons, hc, ih]
    · simp [List.takeWhile_cons, List.dropWhile_cons, hc]

/-! ### Parsing one heading line -/

theorem parseHeadingLine_inv {line : String} {m : Nat} {t : String}
    (h : parseHeadingLine line = some (m, t)) :
    1 ≤ m ∧ m ≤ 6 ∧ t.data ≠ [] ∧
      ((∃ c t2, t.data = c :: t2 ∧ isJsWs c = false) ∨
        (∃ c, t.data = [c] ∧ isJsWs c = true)) := by
  unfold parseHeadingLine at h
  dsimp only at h
  split at h
  case isFalse => exact absurd h (by simp)
  case isTrue hg =>
    set cs := line.data with hcs
    set m0 := (cs.takeWhile (fun c => decide (c = '#'))).length with hm0
    set rest := cs.drop m0 with hrest
    set w := (rest.takeWhile isJsWs).length with hw
    obtain ⟨hg1, hg2, hg3, hg4⟩ := hg
    obtain ⟨hm, ht⟩ : m0 = m ∧ String.mk (rest.drop (min w (rest.length - 1))) = t := by
      simpa using h
    subst hm
    refine ⟨hg1, hg2, ?_, ?_⟩
    · have : t.data = rest.drop (min w (rest.length - 1)) := by rw [← ht]
      rw [this]
      have hwle : w ≤ rest.length := by
        have := length_takeWhile_add_dropWhile isJsWs rest
        omega
      have : (rest.drop (min w (rest.length - 1))).length = rest.length - min w (rest.length - 1) :=
        List.length_drop _ _
      intro hnil
      rw [hnil] at this
      simp at this
      omega
    · have htd : t.data = rest.drop (min w (rest.length - 1)) := by rw [← ht]
      have hwle : w ≤ rest.length := by
        have := length_takeWhile_add_dropWhile isJsWs rest
        omega
      by_cases hcase : w < rest.length
      · left
        have hmin : min w (rest.length - 1) = w := by omega
        rw [hmin] at htd
        rw [drop_length_takeWhile isJsWs rest] at htd
        rcases dropWhile_shape isJsWs rest with hsh | ⟨c, t2, hsh, hc⟩
        · have := length_takeWhile_add_dropWhile isJsWs rest
          rw [hsh] at this
          simp at this
          omega
        · exact ⟨c, t2, by rw [htd, hsh], hc⟩
      · right
        have hweq : w = rest.length := by omega
        have hall : ∀ c ∈ rest, isJsWs c = true :=
          takeWhile_eq_self_of_length isJsWs rest (by omega)
        have hmin : min w (rest.length - 1) = rest.length - 1 := by omega
        rw [hmin] at htd
        have hlen1 : (rest.drop (rest.length - 1)).length = 1 := by
          rw [List.length_drop]
          omega
        obtain ⟨c, hc⟩ := List.length_eq_one.mp hlen1
        refine ⟨c, by rw [htd, hc], hall c ?_⟩
        exact List.mem_of_mem_drop (by rw [hc]; simp)

theorem parseHeadingLine_construct (m : Nat) (hm1 : 1 ≤ m) (hm6 : m ≤ 6)
    (ws : List Char) (hws0 : ws ≠ []) (hws : ∀ c ∈ ws, isJsWs c = true)
    (t : List Char) (c0 : Char) (t2 : List Char) (ht : t = c0 :: t2)
    (hc0 : isJsWs c0 = false) :
    parseHeadingLine (String.mk (List.replicate m '#' ++ ws ++ t)) = some (m, String.mk t) := by
  obtain ⟨w0, wt, hw0⟩ : ∃ w0 wt, ws = w0 :: wt := by
    cases ws with
    | nil => exact absurd rfl hws0
    | cons a b => exact ⟨a, b, rfl⟩
  have hwsh : isJsWs '#' = false := by decide
  have hw0ne : decide (w0 = '#') = false := by
    have hmem := hws w0 (by simp [hw0])
    by_cases hq : w0 = '#'
    · subst hq
      rw [hmem] at hwsh
      cases hwsh
    · simp [hq]
  have hrep : ∀ c ∈ List.replicate m '#', decide (c = '#') = true := by
    intro c hc
    simp [List.eq_of_mem_replicate hc]
  unfold parseHeadingLine
  dsimp only
  rw [hw0, List.append_assoc, List.cons_append]
  rw [takeWhile_append_run (wt ++ t) hrep hw0ne]
  have hlenrep : (List.replicate m '#').length = m := List.length_replicate m '#'
  rw [hlenrep, List.drop_left' hlenrep]
  have htw : List.takeWhile isJsWs (w0 :: (wt ++ t)) = ws := by
    rw [show w0 :: (wt ++ t) = ws ++ (c0 :: t2) by simp [hw0, ht]]
    exact takeWhile_append_run t2 hws hc0
  rw [htw]
  have hmin : ws.length ⊓ ((w0 :: (wt ++ t)).length - 1) = ws.length := by
    simp only [hw0, ht, List.length_cons, List.length_append]
    omega
  rw [hmin]
  have hdrop : List.drop ws.length (w0 :: (wt ++ t)) = t := by
    rw [show w0 :: (wt ++ t) = ws ++ t by simp [hw0]]
    exact List.drop_left ws t
  rw [hdrop]
  have hguard : 1 ≤ m ∧ m ≤ 6 ∧ 1 ≤ ws.length ∧ 2 ≤ (w0 :: (wt ++ t)).length := by
    refine ⟨hm1, hm6, by simp [hw0], ?_⟩
    simp only [ht, List.length_cons, List.length_append]
    omega
  rw [if_pos hguard]

theorem parseIdBar_hid (ds : List Char) (hne : ds ≠ [])
    (hdig : ∀ c ∈ ds, c.isDigit = true) (rest : List Char) :
    parseIdBar ('H' :: (ds ++ '|' :: rest)) = some (String.mk ('H' :: ds), rest) := by
  have h1 : List.takeWhile Char.isDigit (ds ++ '|' :: rest) = ds :=
    takeWhile_append_run rest hdig (by decide)
  have h2 : List.drop ds.length (ds ++ '|' :: rest) = '|' :: rest := List.drop_left ds _
  simp [parseIdBar, h1, h2, List.length_eq_zero, hne]

theorem parseEditedBody_outline (lvl : Nat) (hm1 : 1 ≤ lvl) (hm6 : lvl ≤ 6) (t : String)
    (hdich : (∃ c t2, t.data = c :: t2 ∧ isJsWs c = false) ∨
      (∃ c, t.data = [c] ∧ isJsWs c = true)) :
    parseEditedBody (List.replicate lvl '#' ++ ' ' :: t.data) = some (lvl, jsTrim t) := by
  obtain ⟨l2, rfl⟩ : ∃ l2, lvl = l2 + 1 := ⟨lvl - 1, by omega⟩
  unfold parseEditedBody
  dsimp only
  have hdw : List.dropWhile isJsWs (List.replicate (l2 + 1) '#' ++ ' ' :: t.data) =
      List.replicate (l2 + 1) '#' ++ ' ' :: t.data := by
    rw [List.replicate_succ, List.cons_append,
      List.dropWhile_cons_of_neg (by decide : ¬ isJsWs '#' = true)]
  rw [hdw]
  have hrep : ∀ c ∈ List.replicate (l2 + 1) '#', decide (c = '#') = true := by
    intro c hc
    simp [List.eq_of_mem_replicate hc]
  rw [takeWhile_append_run t.data hrep (by decide : decide (' ' = '#') = false)]
  have hlenrep : (List.replicate (l2 + 1) '#').length = l2 + 1 := List.length_replicate _ '#'
  rw [hlenrep, List.drop_left' hlenrep]
  rcases hdich with ⟨c, t2, htd, hc⟩ | ⟨c, htd, hc⟩
  · rw [htd]
    have hw : List.takeWhile isJsWs (' ' :: c :: t2) = [' '] := by
      simp [List.takeWhile_cons, (by decide : isJsWs ' ' = true), hc]
    rw [hw]
    have hguard : 1 ≤ l2 + 1 ∧ l2 + 1 ≤ 6 ∧ 1 ≤ ([' '] : List Char).length ∧
        2 ≤ (' ' :: c :: t2).length := by
      refine ⟨by omega, hm6, by simp, by simp⟩
    rw [if_pos hguard]
    have hmin : ([' '] : List Char).length ⊓ ((' ' :: c :: t2).length - 1) = 1 := by
      simp
    rw [hmin]
    have : List.drop 1 (' ' :: c :: t2) = c :: t2 := rfl
    rw [this, ← htd]
  · rw [htd]
    have hw : List.takeWhile isJsWs (' ' :: [c]) = [' ', c] := by
      simp [List.takeWhile_cons, (by decide : isJsWs ' ' = true), hc]
    rw [hw]
    have hguard : 1 ≤ l2 + 1 ∧ l2 + 1 ≤ 6 ∧ 1 ≤ ([' ', c] : List Char).length ∧
        2 ≤ (' ' :: [c]).length := by
      refine ⟨by omega, hm6, by simp, by simp⟩
    rw [if_pos hguard]
    have hmin : ([' ', c] : List Char).length ⊓ ((' ' :: [c]).length - 1) = 1 := by
      simp
    rw [hmin]
    have hdrop1 : List.drop 1 (' ' :: [c]) = [c] := rfl
    rw [hdrop1]
    have ht2 : t = String.mk [c] := by rw [← htd]
    rw [ht2]

theorem parseEditedLine_outlineLine (h : HeadingInfo) (k : Nat)
    (hid : h.id = "H" ++ Nat.repr k)
    (hp : parseHeadingLine h.originalLine = some (h.level, h.text)) :
    parseEditedLine (outlineLine h) = some ⟨h.id, h.level, jsTrim h.text⟩ := by
  obtain ⟨hm1, hm6, hne, hdich⟩ := parseHeadingLine_inv hp
  have hidmk : String.mk ('H' :: natChars k) = h.id := by
    rw [hid]
    have : ("H" ++ Nat.repr k) = String.mk (("H" ++ Nat.repr k).data) := rfl
    rw [this, hid_data]
  have hdata : (outlineLine h).data =
      'H' :: (natChars k ++ '|' :: (List.replicate h.level '#' ++ ' ' :: h.text.data)) := by
    show (h.id ++ "|" ++ hashRun h.level ++ " " ++ h.text).data = _
    rw [hid]
    have hbar : ("|" : String).data = ['|'] := rfl
    have hsp : (" " : String).data = [' '] := rfl
    have hrd : (Nat.repr k).data = natChars k := by rw [repr_eq_natChars]
    simp [String.data_append, hbar, hsp, hrd, hashRun, List.append_assoc]
  unfold parseEditedLine
  rw [hdata, parseIdBar_hid (natChars k) (natChars_ne_nil k) (natChars_digits k) _]
  dsimp only
  rw [parseEditedBody_outline h.level hm1 hm6 h.text hdich]
  dsimp only
  rw [hidmk]

/-! ### Invariants of extraction -/

theorem parseHeadingsAux_mem (ls : List String) : ∀ (idx counter : Nat),
    ∀ h0 ∈ parseHeadingsAux ls idx counter,
      idx ≤ h0.line ∧ h0.line - idx < ls.length ∧
      ls.get? (h0.line - idx) = some h0.originalLine ∧
      parseHeadingLine h0.originalLine = some (h0.level, h0.text) ∧
      ∃ k, counter < k ∧ h0.id = "H" ++ Nat.repr k := by
  induction ls with
  | nil => intro idx counter h0 hmem; simp [parseHeadingsAux] at hmem
  | cons l t ih =>
    intro idx counter h0 hmem
    rw [parseHeadingsAux] at hmem
    rcases hp : parseHeadingLine l with _ | lt
    · rw [hp] at hmem
      obtain ⟨h1, h2, h3, h4, k, hk, hk2⟩ := ih (idx + 1) counter h0 hmem
      refine ⟨by omega, by simp; omega, ?_, h4, k, hk, hk2⟩
      rw [show h0.line - idx = (h0.line - (idx + 1)) + 1 by omega]
      simpa using h3
    · rw [hp] at hmem
      rcases List.mem_cons.mp hmem with hmem | hmem

      · subst hmem
        refine ⟨Nat.le_refl idx, by simp, by simp, by simpa using hp,
          counter + 1, Nat.lt_succ_self counter, rfl⟩
      · obtain ⟨h1, h2, h3, h4, k, hk, hk2⟩ := ih (idx + 1) (counter + 1) h0 hmem
        refine ⟨by omega, by simp; omega, ?_, h4, k, by omega, hk2⟩
        rw [show h0.line - idx = (h0.line - (idx + 1)) + 1 by omega]
        simpa using h3

theorem parseHeadingsAux_pairwise_line (ls : List String) : ∀ (idx counter : Nat),
    (parseHeadingsAux ls idx counter).Pairwise (fun a b => a.line < b.line) := by
  induction ls with
  | nil => intro idx counter; simp [parseHeadingsAux]
  | cons l t ih =>
    intro idx counter
    rw [parseHeadingsAux]
    rcases hp : parseHeadingLine l with _ | lt
    · exact ih (idx + 1) counter
    · refine List.Pairwise.cons ?_ (ih (idx + 1) (counter + 1))
      intro b hb
      have := (parseHeadingsAux_mem t (idx + 1) (counter + 1) b hb).1
      simpa using by omega

theorem parseHeadingsAux_pairwise_id (ls : List String) : ∀ (idx counter : Nat),
    (parseHeadingsAux ls idx counter).Pairwise (fun a b => a.id ≠ b.id) := by
  induction ls with
  | nil => intro idx counter; simp [parseHeadingsAux]
  | cons l t ih =>
    intro idx counter
    rw [parseHeadingsAux]
    rcases hp : parseHeadingLine l with _ | lt
    · exact ih (idx + 1) counter
    · refine List.Pairwise.cons ?_ (ih (idx + 1) (counter + 1))
      intro b hb
      obtain ⟨_, _, _, _, k, hk, hk2⟩ := parseHeadingsAux_mem t (idx + 1) (counter + 1) b hb
      intro hcontra
      simp only at hcontra
      rw [hk2] at hcontra
      have := hid_injective hcontra
      omega

theorem parseHeadings_mem {content : String} {h0 : HeadingInfo}
    (hmem : h0 ∈ parseHeadings content) :
    h0.line < (splitNewlines content).length ∧
    (splitNewlines content).get? h0.line = some h0.originalLine ∧
    parseHeadingLine h0.originalLine = some (h0.level, h0.text) ∧
    ∃ k, 0 < k ∧ h0.id = "H" ++ Nat.repr k := by
  obtain ⟨h1, h2, h3, h4, k, hk, hk2⟩ :=
    parseHeadingsAux_mem (splitNewlines content) 0 0 h0 hmem
  exact ⟨by omega, by simpa using h3, h4, k, hk, hk2⟩

theorem parseHeadings_id_ne_NEW {content : String} {h0 : HeadingInfo}
    (hmem : h0 ∈ parseHeadings content) : h0.id ≠ "NEW" := by
  obtain ⟨_, _, _, k, _, hk2⟩ := parseHeadings_mem hmem
  rw [hk2]
  exact hid_ne_NEW k

theorem parseHeadings_pairwise_line (content : String) :
    (parseHeadings content).Pairwise (fun a b => a.line < b.line) :=
  parseHeadingsAux_pairwise_line _ 0 0

theorem parseHeadings_pairwise_id (content : String) :
    (parseHeadings content).Pairwise (fun a b => a.id ≠ b.id) :=
  parseHeadingsAux_pairwise_id _ 0 0

/-! ### Decomposing the update-or-mark loop -/

theorem applyLoop_rem (es : List EditedHeading) (hs : List HeadingInfo) :
    ∀ (lines : List String) (rem : List Nat) (ch : Bool),
      (applyLoop es hs (lines, rem, ch)).2.1 = rem ++ linesToRemove hs es := by
  induction hs with
  | nil => intro lines rem ch; simp [applyLoop, linesToRemove]
  | cons h t ih =>
    intro lines rem ch
    rw [applyLoop]
    by_cases hhas : hasEditedId es h.id
    · have hltr : linesToRemove (h :: t) es = linesToRemove t es := by
        simp [linesToRemove, List.filter_cons, hhas]
      rw [if_pos hhas, hltr]
      rcases hfind : editMapFind es h.id with _ | e
      · exact ih lines rem ch
      · dsimp only
        split
        · exact ih lines rem ch
        · exact ih _ rem true
    · have hltr : linesToRemove (h :: t) es = h.line :: linesToRemove t es := by
        simp [linesToRemove, List.filter_cons, hhas]
      rw [if_neg hhas, hltr, ih lines (rem ++ [h.line]) true]
      simp

theorem applyLoop_lines (es : List EditedHeading) (hs : List HeadingInfo) :
    ∀ (lines : List String) (rem : List Nat) (ch : Bool),
      (applyLoop es hs (lines, rem, ch)).1 = hs.foldl (applyStep es) lines := by
  induction hs with
  | nil => intro lines rem ch; simp [applyLoop]
  | cons h t ih =>
    intro lines rem ch
    rw [applyLoop, List.foldl_cons]
    by_cases hhas : hasEditedId es h.id
    · rw [if_pos hhas]
      rcases hfind : editMapFind es h.id with _ | e
      · have hstep : applyStep es lines h = lines := by
          unfold applyStep
          rw [if_pos hhas, hfind]
        rw [hstep]
        exact ih lines rem ch
      · dsimp only
        split
        · next heq =>
          have hstep : applyStep es lines h = lines := by
            unfold applyStep
            rw [if_pos hhas, hfind]
            dsimp only
            rw [if_pos heq]
          rw [hstep]
          exact ih lines rem ch
        · next hne =>
          have hstep : applyStep es lines h =
              lines.set h.line (rebuildLine e.level e.text) := by
            unfold applyStep
            rw [if_pos hhas, hfind]
            dsimp only
            rw [if_neg hne]
          rw [hstep]
          exact ih _ rem true
    · have hstep : applyStep es lines h = lines := by
        unfold applyStep
        rw [if_neg hhas]
      rw [if_neg hhas, hstep]
      exact ih lines _ true

theorem foldl_applyStep_getElem? (es : List EditedHeading) (hs : List HeadingInfo)
    (hpw : hs.Pairwise (fun a b => a.line ≠ b.line)) :
    ∀ (lines : List String) (j : Nat),
      (hs.foldl (applyStep es) lines)[j]? = (lines[j]?).map (updLine hs es j) := by
  induction hs with
  | nil =>
    intro lines j
    rcases hl : lines[j]? with _ | l <;> simp [updLine, hl]
  | cons h t ih =>
    intro lines j
    have hpwt := (List.pairwise_cons.mp hpw).2
    have hhead := (List.pairwise_cons.mp hpw).1
    rw [List.foldl_cons, ih hpwt]
    by_cases hj : h.line = j
    · have hfindt : t.find? (fun h0 => decide (h0.line = j)) = none := by
        rw [List.find?_eq_none]
        intro x hx
        simp only [decide_eq_true_eq]
        intro hc
        exact hhead x hx (by omega)
      have hupdt : ∀ l, updLine t es j l = l := by
        intro l
        unfold updLine
        rw [hfindt]
      have hupdh : updLine (h :: t) es j =
          fun l =>
            if hasEditedId es h.id then
              match editMapFind es h.id with
              | some e => rebuildLine e.level e.text
              | none => l
            else l := by
        funext l
        unfold updLine
        rw [List.find?_cons_of_pos _ (by simpa using hj)]
      rw [hupdh]
      unfold applyStep
      by_cases hhas : hasEditedId es h.id
      · rw [if_pos hhas]
        rcases hfind : editMapFind es h.id with _ | e
        · simp only
          rcases hl : lines[j]? with _ | l <;> simp [hupdt, hl]
        · simp only
          split
          · next heq =>
            rw [hj] at heq
            rw [heq]
            simp [hupdt, hhas]
          · next hne =>
            rw [hj]
            rw [show (lines.set j (rebuildLine e.level e.text))[j]? =
                if j = j then Function.const String (rebuildLine e.level e.text) <$> lines[j]?
                else lines[j]? from List.getElem?_set']
            simp only [if_pos rfl]
            rcases hl : lines[j]? with _ | l <;> simp [hupdt, hl, hhas]
      · rw [if_neg hhas]
        rcases hl : lines[j]? with _ | l <;> simp [hupdt, hl, hhas]
    · have hupdh : ∀ l, updLine (h :: t) es j l = updLine t es j l := by
        intro l
        unfold updLine
        rw [List.find?_cons_of_neg _ (by simpa using hj)]
      have hstep : (applyStep es lines h)[j]? = lines[j]? := by
        unfold applyStep
        by_cases hhas : hasEditedId es h.id
        · rw [if_pos hhas]
          rcases hfind : editMapFind es h.id with _ | e
          · rfl
          · simp only
            split
            · rfl
            · exact List.getElem?_set_ne hj
        · rw [if_neg hhas]
      rw [hstep]
      rcases hl : lines[j]? with _ | l <;> simp [hupdh, hl]

theorem updAux_getElem? (hs : List HeadingInfo) (es : List EditedHeading) :
    ∀ (ls : List String) (j0 k : Nat),
      (updAux hs es ls j0)[k]? = (ls[k]?).map (updLine hs es (j0 + k)) := by
  intro ls
  induction ls with
  | nil => intro j0 k; simp [updAux]
  | cons l t ih =>
    intro j0 k
    rcases k with _ | k
    · simp [updAux]
    · rw [updAux]
      have := ih (j0 + 1) k
      rw [show j0 + (k + 1) = j0 + 1 + k by omega]
      simpa using this

theorem foldl_applyStep_length (es : List EditedHeading) (hs : List HeadingInfo) :
    ∀ lines : List String, (hs.foldl (applyStep es) lines).length = lines.length := by
  induction hs with
  | nil => intro lines; simp
  | cons h t ih =>
    intro lines
    rw [List.foldl_cons, ih]
    unfold applyStep
    by_cases hhas : hasEditedId es h.id
    · rw [if_pos hhas]
      rcases hfind : editMapFind es h.id with _ | e
      · rfl
      · simp only
        split
        · rfl
        · simp
    · rw [if_neg hhas]

theorem updAux_length (hs : List HeadingInfo) (es : List EditedHeading) :
    ∀ (ls : List String) (j0 : Nat), (updAux hs es ls j0).length = ls.length := by
  intro ls
  induction ls with
  | nil => intro j0; rfl
  | cons l t ih => intro j0; simp [updAux, ih]

theorem foldl_applyStep_eq_updAux (es : List EditedHeading) (hs : List HeadingInfo)
    (hpw : hs.Pairwise (fun a b => a.line ≠ b.line)) (lines : List String) :
    hs.foldl (applyStep es) lines = updAux hs es lines 0 := by
  apply List.ext_getElem?
  intro j
  rw [foldl_applyStep_getElem? es hs hpw, updAux_getElem?]
  simp

/-! ### The descending sort and the splice loop -/

theorem insertDesc_of_lt (x : Nat) (l : List Nat) (hall : ∀ y ∈ l, x < y) :
    insertDesc x l = l ++ [x] := by
  induction l with
  | nil => rfl
  | cons y ys ih =>
    have hy : ¬ y ≤ x := by
      have := hall y (by simp)
      omega
    rw [insertDesc, if_neg hy, ih (fun z hz => hall z (by simp [hz]))]
    rfl

theorem sortDesc_of_increasing (xs : List Nat) (hpw : xs.Pairwise (fun a b => a < b)) :
    sortDesc xs = xs.reverse := by
  induction xs with
  | nil => rfl
  | cons x t ih =>
    have hx := (List.pairwise_cons.mp hpw).1
    have hsd : sortDesc (x :: t) = insertDesc x (sortDesc t) := rfl
    rw [hsd, ih (List.pairwise_cons.mp hpw).2,
      insertDesc_of_lt x t.reverse (fun y hy => hx y (List.mem_reverse.mp hy))]
    simp

theorem keepAux_nil_rem (ls : List String) : ∀ j, keepAux [] ls j = ls := by
  induction ls with
  | nil => intro j; rfl
  | cons l t ih => intro j; simp [keepAux, ih]

theorem keepAux_of_none (rem : List Nat) (ls : List String) : ∀ j,
    (∀ k, j ≤ k → k < j + ls.length → k ∉ rem) → keepAux rem ls j = ls := by
  induction ls with
  | nil => intro j _; rfl
  | cons l t ih =>
    intro j hnone
    have hj : j ∉ rem := hnone j (Nat.le_refl j) (by simp)
    rw [keepAux, if_neg hj, ih (j + 1) (fun k hk1 hk2 => hnone k (by omega) (by simp at hk2 ⊢; omega))]

theorem keepAux_append (rem : List Nat) (as : List String) : ∀ (bs : List String) (j : Nat),
    keepAux rem (as ++ bs) j = keepAux rem as j ++ keepAux rem bs (j + as.length) := by
  induction as with
  | nil => intro bs j; simp [keepAux]
  | cons a t ih =>
    intro bs j
    have harith : j + 1 + t.length = j + (t.length + 1) := by omega
    by_cases hj : j ∈ rem
    · rw [List.cons_append, keepAux, if_pos hj, keepAux, if_pos hj, ih bs (j + 1)]
      rw [show j + (a :: t).length = j + 1 + t.length by simp; omega]
    · rw [List.cons_append, keepAux, if_neg hj, keepAux, if_neg hj, ih bs (j + 1)]
      rw [show j + (a :: t).length = j + 1 + t.length by simp; omega]
      rfl

theorem keepAux_congr (rem1 rem2 : List Nat) (ls : List String) : ∀ j,
    (∀ k, j ≤ k → (k ∈ rem1 ↔ k ∈ rem2)) → keepAux rem1 ls j = keepAux rem2 ls j := by
  induction ls with
  | nil => intro j _; rfl
  | cons l t ih =>
    intro j hiff
    have hrec := ih (j + 1) (fun k hk => hiff k (by omega))
    by_cases hj : j ∈ rem1
    · rw [keepAux, if_pos hj, keepAux, if_pos ((hiff j (Nat.le_refl j)).mp hj), hrec]
    · rw [keepAux, if_neg hj, keepAux,
        if_neg (fun hc => hj ((hiff j (Nat.le_refl j)).mpr hc)), hrec]

theorem eraseIdx_append_middle (A : List String) (x : String) (B : List String) :
    ∀ n, A.length = n → (A ++ x :: B).eraseIdx n = A ++ B := by
  induction A with
  | nil =>
    intro n hn
    subst hn
    rfl
  | cons a t ih =>
    intro n hn
    subst hn
    simp only [List.cons_append, List.length_cons, List.eraseIdx, List.append_eq]
    rw [ih t.length rfl]

theorem foldr_erase_increasing (rem : List Nat) : ∀ (lines : List String),
    rem.Pairwise (fun a b => a < b) → (∀ x ∈ rem, x < lines.length) →
    List.foldr (fun i ls => ls.eraseIdx i) lines rem = keepAux rem lines 0 := by
  induction rem with
  | nil => intro lines _ _; exact (keepAux_nil_rem lines 0).symm
  | cons i rest ih =>
    intro lines hpw hbound
    have hofirst := (List.pairwise_cons.mp hpw).1
    have hi : i < lines.length := hbound i (by simp)
    rw [List.foldr_cons,
      ih lines (List.pairwise_cons.mp hpw).2 (fun x hx => hbound x (by simp [hx]))]
    have hsplit : lines = lines.take i ++ lines[i] :: lines.drop (i + 1) := by
      conv_lhs => rw [← List.take_append_drop i lines]
      rw [List.drop_eq_getElem_cons hi]
    have hlentake : (lines.take i).length = i := by
      simp
      omega
    conv_lhs => rw [hsplit]
    conv_rhs => rw [hsplit]
    rw [keepAux_append, keepAux_append]
    have htakeA : keepAux rest (lines.take i) 0 = lines.take i := by
      apply keepAux_of_none
      intro k hk1 hk2 hkmem
      rw [hlentake] at hk2
      have := hofirst k hkmem
      omega
    have htakeB : keepAux (i :: rest) (lines.take i) 0 = lines.take i := by
      apply keepAux_of_none
      intro k hk1 hk2 hkmem
      rw [hlentake] at hk2
      simp at hk2
      rcases List.mem_cons.mp hkmem with hc | hc
      · omega
      · have := hofirst k hc
        omega
    rw [htakeA, htakeB, hlentake]
    simp only [Nat.zero_add]
    have hconsA : keepAux rest (lines[i] :: lines.drop (i + 1)) i =
        lines[i] :: keepAux rest (lines.drop (i + 1)) (i + 1) := by
      rw [keepAux, if_neg (fun hc => by have := hofirst i hc; omega)]
    have hconsB : keepAux (i :: rest) (lines[i] :: lines.drop (i + 1)) i =
        keepAux (i :: rest) (lines.drop (i + 1)) (i + 1) := by
      rw [keepAux, if_pos (by simp)]
    rw [hconsA, hconsB]
    have hcongr : keepAux (i :: rest) (lines.drop (i + 1)) (i + 1) =
        keepAux rest (lines.drop (i + 1)) (i + 1) := by
      apply keepAux_congr
      intro k hk
      simp only [List.mem_cons]
      constructor
      · intro hc
        rcases hc with hc | hc
        · omega
        · exact hc
      · intro hc
        exact Or.inr hc
    rw [hcongr]
    exact eraseIdx_append_middle (lines.take i) (lines[i])
      (keepAux rest (lines.drop (i + 1)) (i + 1)) i hlentake

theorem removeDescending_eq_keep (rem : List Nat) (lines : List String)
    (hpw : rem.Pairwise (fun a b => a < b)) (hbound : ∀ x ∈ rem, x < lines.length) :
    removeDescending lines (sortDesc rem) = keepAux rem lines 0 := by
  rw [sortDesc_of_increasing rem hpw]
  unfold removeDescending
  rw [List.foldl_reverse]
  exact foldr_erase_increasing rem lines hpw hbound

/-! ### Master characterization of the reconciler line pipeline -/

theorem linesAfterRemoval_eq (hs : List HeadingInfo) (es : List EditedHeading)
    (docLines : List String)
    (hpl : hs.Pairwise (fun a b => a.line < b.line))
    (hbound : ∀ h0 ∈ hs, h0.line < docLines.length) :
    linesAfterRemoval hs es docLines =
      keepAux (linesToRemove hs es) (updAux hs es docLines 0) 0 := by
  unfold linesAfterRemoval applyLinesCore
  dsimp only
  rw [applyLoop_lines es hs docLines [] false, applyLoop_rem es hs docLines [] false]
  rw [List.nil_append]
  rw [foldl_applyStep_eq_updAux es hs (hpl.imp (fun hab => Nat.ne_of_lt hab)) docLines]
  apply removeDescending_eq_keep
  · unfold linesToRemove
    rw [List.pairwise_map]
    exact hpl.filter _
  · intro x hx
    unfold linesToRemove at hx
    rw [List.mem_map] at hx
    obtain ⟨h0, hh0, hline⟩ := hx
    rw [updAux_length]
    rw [← hline]
    exact hbound h0 (List.mem_of_mem_filter hh0)

theorem applyLines_eq (hs : List HeadingInfo) (editedLines docLines : List String)
    (hpl : hs.Pairwise (fun a b => a.line < b.line))
    (hbound : ∀ h0 ∈ hs, h0.line < docLines.length) :
    applyLines hs editedLines docLines =
      keepAux (linesToRemove hs (editedHeadingsOf editedLines))
        (updAux hs (editedHeadingsOf editedLines) docLines 0) 0 ++
      (newHeadingsOf (editedHeadingsOf editedLines)).map
        (fun e => rebuildLine e.level e.text) := by
  unfold applyLines
  dsimp only
  rw [linesAfterRemoval_eq hs _ docLines hpl hbound]

/-! ### Claim C2: positional re-attachment in the adapter -/

theorem matchAuxIdx_shift (o : String) (ot : List String) :
    ∀ (enh : List String) (oi : Nat),
      matchAuxIdx (o :: ot) (oi + 1) enh = matchAuxIdx ot oi enh := by
  intro enh
  induction enh with
  | nil => intro oi; rfl
  | cons e es ih =>
    intro oi
    rw [matchAuxIdx, matchAuxIdx]
    have hget : (o :: ot).get? (oi + 1) = ot.get? oi := rfl
    rw [hget]
    rcases hg : ot.get? oi with _ | o2
    · dsimp only
      rw [ih oi]
    · dsimp only
      rcases hid : lineIdOf o2 with _ | i
      · dsimp only
        rw [ih oi]
      · dsimp only
        rw [ih (oi + 1)]

theorem matchAuxIdx_stuck (orig : List String) (oi : Nat) (o : String)
    (hget : orig.get? oi = some o) (hid : lineIdOf o = none) :
    ∀ enh : List String, matchAuxIdx orig oi enh = enh := by
  intro enh
  induction enh with
  | nil => rfl
  | cons e es ih =>
    rw [matchAuxIdx, hget]
    dsimp only
    rw [hid]
    dsimp only
    rw [ih]

/-- C2, corrected: the alignment of matchHeadingsWithIds is not an i-th to
i-th pairing. The pointer into the original lines advances only past
original lines that carry an id: with k the length of the leading run of
id-carrying original lines, the first k enhanced lines reuse those ids
pairwise; as soon as some original line lacks an id the pointer sticks there
and every later enhanced line is emitted bare; only when every original line
carries an id are the surplus enhanced lines tagged NEW. -/
theorem C2_amended (originalLines enhancedLines : List String) :
    matchHeadingsWithIds originalLines enhancedLines =
      matchSpecAmended originalLines enhancedLines := by
  unfold matchHeadingsWithIds
  induction enhancedLines generalizing originalLines with
  | nil =>
    unfold matchSpecAmended
    simp [matchAuxIdx]
  | cons e es ih =>
    rcases originalLines with _ | ⟨o, ot⟩
    · rw [matchAuxIdx]
      have hget : ([] : List String).get? 0 = none := rfl
      rw [hget]
      unfold matchSpecAmended
      have h2 := matchAuxIdx_stuck ([] : List String) 0
      simp [matchAuxIdx_shift]
      rw [show matchAuxIdx ([] : List String) 0 es =
          matchSpecAmended ([] : List String) es from ih []]
      unfold matchSpecAmended
      simp
    · rw [matchAuxIdx]
      have hget : (o :: ot).get? 0 = some o := rfl
      rw [hget]
      rcases hid : lineIdOf o with _ | i
      · rw [matchAuxIdx_stuck (o :: ot) 0 o hget hid es]
        unfold matchSpecAmended
        have hk : (o :: ot).takeWhile (fun l => (lineIdOf l).isSome) = [] := by
          rw [List.takeWhile_cons_of_neg]
          simp [hid]
        rw [hk]
        simp [hid]
      · rw [matchAuxIdx_shift o ot es 0, ih ot]
        unfold matchSpecAmended
        have hk : (o :: ot).takeWhile (fun l => (lineIdOf l).isSome) =
            o :: ot.takeWhile (fun l => (lineIdOf l).isSome) := by
          rw [List.takeWhile_cons_of_pos]
          simp [hid]
        rw [hk]
        simp only [List.length_cons, List.take_succ_cons, List.zipWith_cons_cons,
          List.drop_succ_cons, List.cons_append, Nat.add_lt_add_iff_right, hid]
        simp

/-- C2, counterexample: with an original line lacking an id followed by one
carrying H1, the claimed i-th to i-th pairing would attach H1 to the second
enhanced line, but the source emits both enhanced lines bare. -/
theorem C2_counterexample :
    matchHeadingsWithIds ["x", "H1|# A"] ["e0", "e1"] ≠
      matchSpecClaim ["x", "H1|# A"] ["e0", "e1"] := by
  decide

/-! ### Claim C4: identifier stripping before the external call -/

/-- C4, corrected: only a prefix of the form capital H plus digits plus a bar
followed by at least one character is stripped by enhanceWithAI; a line
tagged with the NEW sentinel is passed through unchanged, so the external
service does see the NEW identifier, and a prefixed line with nothing after
the bar is also passed through unchanged. -/
theorem C4_amended :
    (∀ (ds rest : List Char), ds ≠ [] → (∀ c ∈ ds, c.isDigit = true) → rest ≠ [] →
      stripLineId (String.mk ('H' :: (ds ++ '|' :: rest))) = String.mk rest) ∧
    (∀ rest : List Char,
      stripLineId (String.mk ('N' :: 'E' :: 'W' :: '|' :: rest)) =
        String.mk ('N' :: 'E' :: 'W' :: '|' :: rest)) := by
  constructor
  · intro ds rest hne hdig hrest
    have h1 : List.takeWhile Char.isDigit (ds ++ '|' :: rest) = ds :=
      takeWhile_append_run rest hdig (by decide)
    have h2 : List.drop ds.length (ds ++ '|' :: rest) = '|' :: rest := List.drop_left ds _
    simp [stripLineId, h1, h2, List.length_eq_zero, hne, hrest]
  · intro rest
    rfl

/-- C4, counterexample: the claim includes the literal NEW among the stripped
ids, but the stripping pattern only matches H followed by digits, so a NEW
line reaches the service with its identifier intact. -/
theorem C4_counterexample : ¬ stripLineId "NEW|# C" = "# C" := by
  decide

theorem C4_witness :
    stripLineId (String.mk ('H' :: (['1', '2'] ++ '|' :: ['#', ' ', 'A']))) =
      String.mk ['#', ' ', 'A'] ∧
    stripLineId (String.mk ('N' :: 'E' :: 'W' :: '|' :: ['#', ' ', 'C'])) =
      String.mk ('N' :: 'E' :: 'W' :: '|' :: ['#', ' ', 'C']) :=
  ⟨C4_amended.1 ['1', '2'] ['#', ' ', 'A'] (by decide) (by decide) (by decide),
    C4_amended.2 ['#', ' ', 'C']⟩

/-! ### Claim C5: extraction does not trim the heading text -/

/-- C5, corrected: for a heading line consisting of a marker run, a nonempty
whitespace run, and a remainder starting with a non-whitespace character, the
extracted text is that remainder verbatim: the leading whitespace is consumed
by the separator, but trailing whitespace inside the remainder is preserved,
not trimmed. -/
theorem C5_amended (m : Nat) (hm1 : 1 ≤ m) (hm6 : m ≤ 6)
    (ws : List Char) (hws0 : ws ≠ []) (hws : ∀ c ∈ ws, isJsWs c = true)
    (c0 : Char) (t2 : List Char) (hc0 : isJsWs c0 = false) :
    parseHeadingLine (String.mk (List.replicate m '#' ++ ws ++ (c0 :: t2))) =
      some (m, String.mk (c0 :: t2)) :=
  parseHeadingLine_construct m hm1 hm6 ws hws0 hws (c0 :: t2) c0 t2 rfl hc0

theorem C5_witness :
    parseHeadingLine (String.mk (List.replicate 1 '#' ++ [' '] ++ ('A' :: [' ']))) =
      some (1, String.mk ('A' :: [' '])) :=
  C5_amended 1 (by decide) (by decide) [' '] (by decide) (by decide) 'A' [' '] (by decide)

/-- C5, counterexample: on the document consisting of the single line hash,
space, A, space, the extracted text keeps its trailing space, so it differs
from its trimmed form, contradicting the claim that the text field is
trimmed. -/
theorem C5_counterexample :
    (parseHeadings "# A ").map (fun h => h.text) = ["A "] ∧
    (parseHeadings "# A ").map (fun h => h.text) ≠
      (parseHeadings "# A ").map (fun h => jsTrim h.text) := by
  decide

/-! ### Claim C10: lenient parsing of edited lines -/

/-- C10, confirmed: the reconciler accepts whitespace between the bar and the
marker run and trims the captured text, for every well formed id and for the
NEW sentinel. -/
theorem C10_lenient :
    (∀ ds : List Char, ds ≠ [] → (∀ c ∈ ds, c.isDigit = true) →
      parseEditedLine (String.mk ('H' :: (ds ++ '|' :: ("  ## T  ").data))) =
        some ⟨String.mk ('H' :: ds), 2, "T"⟩) ∧
    parseEditedLine "NEW|  ## T  " = some ⟨"NEW", 2, "T"⟩ := by
  constructor
  · intro ds hne hdig
    unfold parseEditedLine
    rw [parseIdBar_hid ds hne hdig _]
    dsimp only
    rw [show parseEditedBody (("  ## T  ").data) = some (2, "T") from by decide]
  · decide

theorem C10_witness :
    parseEditedLine (String.mk ('H' :: (['1'] ++ '|' :: ("  ## T  ").data))) =
      some ⟨String.mk ('H' :: ['1']), 2, "T"⟩ ∧
    parseEditedLine "NEW|  ## T  " = some ⟨"NEW", 2, "T"⟩ :=
  ⟨C10_lenient.1 ['1'] (by decide) (by decide), C10_lenient.2⟩

/-! ### Congruence of the loop in the edited entries -/

theorem find?_skip_middle {α : Type} (p : α → Bool) (A : List α) (x : α) (B : List α)
    (hx : p x = false) : List.find? p (A ++ x :: B) = List.find? p (A ++ B) := by
  induction A with
  | nil => simp [List.find?_cons, hx]
  | cons a t ih =>
    cases ha : p a
    · simp only [List.cons_append, List.find?_cons, ha]
      exact ih
    · simp only [List.cons_append, List.find?_cons, ha]

theorem applyLoop_congr (es1 es2 : List EditedHeading) (hs : List HeadingInfo)
    (hagree : ∀ h0 ∈ hs, hasEditedId es1 h0.id = hasEditedId es2 h0.id ∧
      editMapFind es1 h0.id = editMapFind es2 h0.id) :
    ∀ st, applyLoop es1 hs st = applyLoop es2 hs st := by
  induction hs with
  | nil => intro st; rfl
  | cons h t ih =>
    intro st
    obtain ⟨lines, rem, ch⟩ := st
    have h1 := (hagree h (by simp)).1
    have h2 := (hagree h (by simp)).2
    have ihtail := ih (fun h0 hh0 => hagree h0 (by simp [hh0]))
    simp only [applyLoop]
    rw [h1, h2]
    by_cases hhas : hasEditedId es2 h.id
    · rw [if_pos hhas, if_pos hhas]
      rcases hfind : editMapFind es2 h.id with _ | e0
      · exact ihtail _
      · dsimp only
        split
        · exact ihtail _
        · exact ihtail _
    · rw [if_neg hhas, if_neg hhas]
      exact ihtail _

/-! ### Claim C8: unknown ids are ignored -/

/-- C8, confirmed: inserting an edited line whose id parses as H followed by
digits but matches no original heading id changes nothing observable except
the modified count: the produced text, the changed flag, and the removed and
added counts are those of the same edit without that line. -/
theorem C8_unknown_id (hs : List HeadingInfo) (content : String)
    (l1 l2 : List String) (bad : String) (e : EditedHeading)
    (hparse : parseEditedLine bad = some e)
    (hnew : ¬ e.id = "NEW")
    (hunknown : ∀ h0 ∈ hs, ¬ h0.id = e.id) :
    (applyChangesFromLines hs (l1 ++ bad :: l2) content).text =
      (applyChangesFromLines hs (l1 ++ l2) content).text ∧
    (applyChangesFromLines hs (l1 ++ bad :: l2) content).changed =
      (applyChangesFromLines hs (l1 ++ l2) content).changed ∧
    (applyChangesFromLines hs (l1 ++ bad :: l2) content).removed =
      (applyChangesFromLines hs (l1 ++ l2) content).removed ∧
    (applyChangesFromLines hs (l1 ++ bad :: l2) content).added =
      (applyChangesFromLines hs (l1 ++ l2) content).added := by
  have hsplit : editedHeadingsOf (l1 ++ bad :: l2) =
      editedHeadingsOf l1 ++ e :: editedHeadingsOf l2 := by
    simp [editedHeadingsOf, List.filterMap_append, List.filterMap_cons, hparse]
  have hsplit2 : editedHeadingsOf (l1 ++ l2) =
      editedHeadingsOf l1 ++ editedHeadingsOf l2 := by
    simp [editedHeadingsOf, List.filterMap_append]
  have hhasagree : ∀ i : String, ¬ i = e.id →
      hasEditedId (editedHeadingsOf l1 ++ e :: editedHeadingsOf l2) i =
        hasEditedId (editedHeadingsOf l1 ++ editedHeadingsOf l2) i := by
    intro i hi
    simp only [hasEditedId, List.any_append, List.any_cons]
    have : decide (e.id = i) = false := by
      simp
      intro hc
      exact hi hc.symm
    rw [this]
    simp
  have hfindagree : ∀ i : String, ¬ i = e.id →
      editMapFind (editedHeadingsOf l1 ++ e :: editedHeadingsOf l2) i =
        editMapFind (editedHeadingsOf l1 ++ editedHeadingsOf l2) i := by
    intro i hi
    unfold editMapFind
    rw [List.filter_append, List.filter_append, List.filter_cons, if_pos (by simp [hnew])]
    rw [List.reverse_append, List.reverse_append, List.reverse_cons, List.append_assoc,
      List.singleton_append]
    apply find?_skip_middle
    simp
    intro hc
    exact hi hc.symm
  have hnews : newHeadingsOf (editedHeadingsOf l1 ++ e :: editedHeadingsOf l2) =
      newHeadingsOf (editedHeadingsOf l1 ++ editedHeadingsOf l2) := by
    simp only [newHeadingsOf, List.filter_append, List.filter_cons]
    rw [if_neg (by simp [hnew])]
  have hagree : ∀ h0 ∈ hs,
      hasEditedId (editedHeadingsOf l1 ++ e :: editedHeadingsOf l2) h0.id =
        hasEditedId (editedHeadingsOf l1 ++ editedHeadingsOf l2) h0.id ∧
      editMapFind (editedHeadingsOf l1 ++ e :: editedHeadingsOf l2) h0.id =
        editMapFind (editedHeadingsOf l1 ++ editedHeadingsOf l2) h0.id := by
    intro h0 hh0
    exact ⟨hhasagree h0.id (hunknown h0 hh0), hfindagree h0.id (hunknown h0 hh0)⟩
  have hloop := applyLoop_congr _ _ hs hagree
  have hdel : deletedCount hs (editedHeadingsOf l1 ++ e :: editedHeadingsOf l2) =
      deletedCount hs (editedHeadingsOf l1 ++ editedHeadingsOf l2) := by
    unfold deletedCount
    congr 1
    apply List.filter_congr
    intro i hi
    obtain ⟨h0, hh0, hid0⟩ := List.mem_map.mp (List.mem_dedup.mp hi)
    rw [hhasagree i (by rw [← hid0]; exact hunknown h0 hh0)]
  have happly : applyLines hs (l1 ++ bad :: l2) (splitNewlines content) =
      applyLines hs (l1 ++ l2) (splitNewlines content) := by
    unfold applyLines linesAfterRemoval applyLinesCore
    dsimp only
    rw [hsplit, hsplit2, hloop, hnews]
  have hcore : applyLinesCore hs (editedHeadingsOf l1 ++ e :: editedHeadingsOf l2)
      (splitNewlines content) =
      applyLinesCore hs (editedHeadingsOf l1 ++ editedHeadingsOf l2)
      (splitNewlines content) := hloop _
  unfold applyChangesFromLines
  dsimp only
  rw [hsplit, hsplit2, hcore, hnews, happly, hdel]
  exact ⟨rfl, rfl, rfl, rfl⟩

theorem C8_witness :
    (applyChangesFromLines (parseHeadings "# A\nbody\n## B")
        (["H1|# A", "H2|## B"] ++ "H99|# Z" :: []) "# A\nbody\n## B").text =
      (applyChangesFromLines (parseHeadings "# A\nbody\n## B")
        (["H1|# A", "H2|## B"] ++ []) "# A\nbody\n## B").text ∧
    (applyChangesFromLines (parseHeadings "# A\nbody\n## B")
        (["H1|# A", "H2|## B"] ++ "H99|# Z" :: []) "# A\nbody\n## B").changed =
      (applyChangesFromLines (parseHeadings "# A\nbody\n## B")
        (["H1|# A", "H2|## B"] ++ []) "# A\nbody\n## B").changed ∧
    (applyChangesFromLines (parseHeadings "# A\nbody\n## B")
        (["H1|# A", "H2|## B"] ++ "H99|# Z" :: []) "# A\nbody\n## B").removed =
      (applyChangesFromLines (parseHeadings "# A\nbody\n## B")
        (["H1|# A", "H2|## B"] ++ []) "# A\nbody\n## B").removed ∧
    (applyChangesFromLines (parseHeadings "# A\nbody\n## B")
        (["H1|# A", "H2|## B"] ++ "H99|# Z" :: []) "# A\nbody\n## B").added =
      (applyChangesFromLines (parseHeadings "# A\nbody\n## B")
        (["H1|# A", "H2|## B"] ++ []) "# A\nbody\n## B").added :=
  C8_unknown_id (parseHeadings "# A\nbody\n## B") "# A\nbody\n## B"
    ["H1|# A", "H2|## B"] [] "H99|# Z" ⟨"H99", 1, "Z"⟩
    (by decide) (by decide) (by decide)

/-! ### Claim C7: NEW entries are appended at the end in order -/

theorem editedHeadingsOf_filter_notNew (editedLines : List String) :
    editedHeadingsOf (editedLines.filter (fun l => !isNewEntryLine l)) =
      (editedHeadingsOf editedLines).filter (fun x => ¬ x.id = "NEW") := by
  induction editedLines with
  | nil => rfl
  | cons l t ih =>
    simp only [editedHeadingsOf] at ih ⊢
    rcases hp : parseEditedLine l with _ | e0
    · have hnl : isNewEntryLine l = false := by simp [isNewEntryLine, hp]
      rw [List.filter_cons]
      rw [if_pos (by simp [hnl]), List.filterMap_cons, hp, List.filterMap_cons, hp]
      exact ih
    · by_cases hq : e0.id = "NEW"
      · have h1 : isNewEntryLine l = true := by simp [isNewEntryLine, hp, hq]
        rw [List.filter_cons]
        rw [if_neg (by simp [h1]), List.filterMap_cons, hp, List.filter_cons]
        rw [if_neg (by simp [hq])]
        exact ih
      · have h1 : isNewEntryLine l = false := by simp [isNewEntryLine, hp, hq]
        rw [List.filter_cons]
        rw [if_pos (by simp [h1]), List.filterMap_cons, hp, List.filterMap_cons, hp,
          List.filter_cons]
        rw [if_pos (by simp [hq]), ih]

theorem hasEditedId_filter_notNew (es : List EditedHeading) (i : String) (hi : ¬ i = "NEW") :
    hasEditedId (es.filter (fun x => ¬ x.id = "NEW")) i = hasEditedId es i := by
  induction es with
  | nil => rfl
  | cons e0 t ih =>
    by_cases hq : e0.id = "NEW"
    · rw [List.filter_cons, if_neg (by simp [hq])]
      rw [ih]
      have : decide (e0.id = i) = false := by
        simp [hq]
        intro hc
        exact hi hc.symm
      simp [hasEditedId, List.any_cons, this]
    · rw [List.filter_cons, if_pos (by simp [hq])]
      simp only [hasEditedId, List.any_cons] at ih ⊢
      rw [ih]

theorem editMapFind_filter_notNew (es : List EditedHeading) (i : String) :
    editMapFind (es.filter (fun x => ¬ x.id = "NEW")) i = editMapFind es i := by
  unfold editMapFind
  rw [List.filter_filter]
  have hfun : (fun (a : EditedHeading) => decide (¬ a.id = "NEW") && decide (¬ a.id = "NEW")) =
      (fun (e : EditedHeading) => decide (¬ e.id = "NEW")) := by
    funext a
    simp
  rw [hfun]

/-- C7, confirmed: the lines produced by reconciliation are exactly those
produced when every NEW line is removed from the edited outline, followed by
the rebuilt NEW entries in the order they appeared; so NEW entries are
appended at the very end, rebuilt as marker run, space, text, and their
position inside the edited outline is irrelevant. -/
theorem C7_additions (hs : List HeadingInfo) (editedLines docLines : List String)
    (hnotnew : ∀ h0 ∈ hs, ¬ h0.id = "NEW") :
    applyLines hs editedLines docLines =
      applyLines hs (editedLines.filter (fun l => !isNewEntryLine l)) docLines ++
        ((editedHeadingsOf editedLines).filter (fun e => e.id = "NEW")).map
          (fun e => rebuildLine e.level e.text) := by
  have hEF := editedHeadingsOf_filter_notNew editedLines
  have hnewsF : newHeadingsOf ((editedHeadingsOf editedLines).filter
      (fun x => ¬ x.id = "NEW")) = [] := by
    unfold newHeadingsOf
    rw [List.filter_eq_nil_iff]
    intro a ha
    have := (List.mem_filter.mp ha).2
    simp at this
    simp [this]
  have hagree : ∀ h0 ∈ hs,
      hasEditedId ((editedHeadingsOf editedLines).filter (fun x => ¬ x.id = "NEW")) h0.id =
        hasEditedId (editedHeadingsOf editedLines) h0.id ∧
      editMapFind ((editedHeadingsOf editedLines).filter (fun x => ¬ x.id = "NEW")) h0.id =
        editMapFind (editedHeadingsOf editedLines) h0.id := by
    intro h0 hh0
    exact ⟨hasEditedId_filter_notNew _ _ (hnotnew h0 hh0), editMapFind_filter_notNew _ _⟩
  unfold applyLines linesAfterRemoval applyLinesCore
  dsimp only
  rw [hEF, hnewsF, applyLoop_congr _ _ hs hagree (docLines, [], false)]
  simp only [List.map_nil, List.append_nil]
  rfl

theorem C7_witness :
    applyLines (parseHeadings "# A") ["NEW|# C", "H1|# A"] (splitNewlines "# A") =
      applyLines (parseHeadings "# A")
        (["NEW|# C", "H1|# A"].filter (fun l => !isNewEntryLine l)) (splitNewlines "# A") ++
        ((editedHeadingsOf ["NEW|# C", "H1|# A"]).filter (fun e => e.id = "NEW")).map
          (fun e => rebuildLine e.level e.text) :=
  C7_additions (parseHeadings "# A") ["NEW|# C", "H1|# A"] (splitNewlines "# A") (by decide)

/-! ### Claims C6 and C9: deletions and the frame -/

/-- C6, confirmed: after the update pass, splicing out the marked indices in
descending order removes exactly the lines of the headings whose id occurs in
no parsed edited entry - the remaining sequence keeps precisely the positions
not marked, in order - and NEW entries never contribute to the deleted set:
dropping them from the edited entries leaves the marked indices unchanged. -/
theorem C6_deletion (content : String) (editedLines : List String) :
    linesAfterRemoval (parseHeadings content) (editedHeadingsOf editedLines)
        (splitNewlines content) =
      keepAux (linesToRemove (parseHeadings content) (editedHeadingsOf editedLines))
        (updAux (parseHeadings content) (editedHeadingsOf editedLines)
          (splitNewlines content) 0) 0 ∧
    linesToRemove (parseHeadings content) (editedHeadingsOf editedLines) =
      linesToRemove (parseHeadings content)
        ((editedHeadingsOf editedLines).filter (fun e => ¬ e.id = "NEW")) := by
  constructor
  · exact linesAfterRemoval_eq (parseHeadings content) (editedHeadingsOf editedLines)
      (splitNewlines content) (parseHeadings_pairwise_line content)
      (fun h0 hh0 => (parseHeadings_mem hh0).1)
  · unfold linesToRemove
    congr 1
    apply List.filter_congr
    intro h0 hh0
    rw [hasEditedId_filter_notNew _ _ (parseHeadings_id_ne_NEW hh0)]

/-- C9, confirmed: under the extraction invariants, the reconciled line array
is the original array transformed position by position - lines at unmarked
positions kept in order, lines at marked positions dropped - followed by the
appended NEW lines; a position carrying no extracted heading is never marked
for removal and its line is never rewritten, so all non-heading content
survives verbatim in its original relative order. -/
theorem C9_frame (content : String) (editedLines : List String) :
    applyLines (parseHeadings content) editedLines (splitNewlines content) =
      keepAux (linesToRemove (parseHeadings content) (editedHeadingsOf editedLines))
        (updAux (parseHeadings content) (editedHeadingsOf editedLines)
          (splitNewlines content) 0) 0 ++
      (newHeadingsOf (editedHeadingsOf editedLines)).map
        (fun e => rebuildLine e.level e.text) ∧
    ∀ j : Nat, (∀ h0 ∈ parseHeadings content, ¬ h0.line = j) →
      (¬ j ∈ linesToRemove (parseHeadings content) (editedHeadingsOf editedLines)) ∧
      ∀ l : String,
        updLine (parseHeadings content) (editedHeadingsOf editedLines) j l = l := by
  constructor
  · exact applyLines_eq (parseHeadings content) editedLines (splitNewlines content)
      (parseHeadings_pairwise_line content) (fun h0 hh0 => (parseHeadings_mem hh0).1)
  · intro j hj
    constructor
    · intro hmem
      unfold linesToRemove at hmem
      obtain ⟨h0, hh0, hline⟩ := List.mem_map.mp hmem
      exact hj h0 (List.mem_of_mem_filter hh0) hline
    · intro l
      unfold updLine
      rw [show (parseHeadings content).find? (fun h0 => decide (h0.line = j)) = none from
        List.find?_eq_none.mpr (fun x hx => by simpa using hj x hx)]

theorem C9_witness :
    (¬ 1 ∈ linesToRemove (parseHeadings "# A\nbody\n## B") (editedHeadingsOf ["H1|# A"])) ∧
    updLine (parseHeadings "# A\nbody\n## B") (editedHeadingsOf ["H1|# A"]) 1 "body" =
      "body" := by
  have h := (C9_frame "# A\nbody\n## B" ["H1|# A"]).2 1 (by decide)
  exact ⟨h.1, h.2 "body"⟩

/-! ### Claim C1: the round trip -/

theorem parseHeadingLine_text_suffix {line : String} {m : Nat} {t : String}
    (h : parseHeadingLine line = some (m, t)) : ∃ n, t.data = line.data.drop n := by
  unfold parseHeadingLine at h
  dsimp only at h
  split at h
  case isFalse => exact absurd h (by simp)
  case isTrue hg =>
    obtain ⟨hm, ht⟩ :
        (line.data.takeWhile (fun c => decide (c = '#'))).length = m ∧
        String.mk ((line.data.drop
              (line.data.takeWhile (fun c => decide (c = '#'))).length).drop
            (min ((line.data.drop
                (line.data.takeWhile (fun c => decide (c = '#'))).length).takeWhile
                  isJsWs).length
              ((line.data.drop
                  (line.data.takeWhile (fun c => decide (c = '#'))).length).length - 1))) =
          t := by
      simpa using h
    refine ⟨(line.data.takeWhile (fun c => decide (c = '#'))).length +
      min ((line.data.drop
          (line.data.takeWhile (fun c => decide (c = '#'))).length).takeWhile
            isJsWs).length
        ((line.data.drop
            (line.data.takeWhile (fun c => decide (c = '#'))).length).length - 1), ?_⟩
    rw [← ht]
    rw [show (String.mk ((line.data.drop
        (line.data.takeWhile (fun c => decide (c = '#'))).length).drop
          (min ((line.data.drop
              (line.data.takeWhile (fun c => decide (c = '#'))).length).takeWhile
                isJsWs).length
            ((line.data.drop
                (line.data.takeWhile (fun c => decide (c = '#'))).length).length - 1)))).data =
      (line.data.drop
          (line.data.takeWhile (fun c => decide (c = '#'))).length).drop
        (min ((line.data.drop
            (line.data.takeWhile (fun c => decide (c = '#'))).length).takeWhile
              isJsWs).length
          ((line.data.drop
              (line.data.takeWhile (fun c => decide (c = '#'))).length).length - 1)) from rfl]
    rw [List.drop_drop]

theorem isDigit_ne_newline {c : Char} (h : c.isDigit = true) : ¬ c = '\n' := by
  intro hc
  subst hc
  exact absurd h (by decide)

theorem outlineLine_data (h0 : HeadingInfo) (k : Nat) (hid : h0.id = "H" ++ Nat.repr k) :
    (outlineLine h0).data =
      'H' :: (natChars k ++ '|' :: (List.replicate h0.level '#' ++ ' ' :: h0.text.data)) := by
  show (h0.id ++ "|" ++ hashRun h0.level ++ " " ++ h0.text).data = _
  rw [hid]
  have hbar : ("|" : String).data = ['|'] := rfl
  have hsp : (" " : String).data = [' '] := rfl
  have hrd : (Nat.repr k).data = natChars k := by rw [repr_eq_natChars]
  simp [String.data_append, hbar, hsp, hrd, hashRun, List.append_assoc]

theorem originalLine_no_newline {content : String} {h0 : HeadingInfo}
    (hmem : h0 ∈ parseHeadings content) : '\n' ∉ h0.originalLine.data := by
  have hget := (parseHeadings_mem hmem).2.1
  have horig : h0.originalLine ∈ splitNewlines content := List.get?_mem hget
  unfold splitNewlines at horig
  obtain ⟨p, hp, hmk⟩ := List.mem_map.mp horig
  rw [← hmk]
  exact mem_splitLinesList_no_newline content.data p hp

theorem outlineLine_no_newline {content : String} {h0 : HeadingInfo}
    (hmem : h0 ∈ parseHeadings content) : '\n' ∉ (outlineLine h0).data := by
  obtain ⟨hlt, hget, hp, k, hk, hid⟩ := parseHeadings_mem hmem
  rw [outlineLine_data h0 k hid]
  intro hcon
  rcases List.mem_cons.mp hcon with hc | hcon
  · exact absurd hc.symm (by decide)
  rcases List.mem_append.mp hcon with hc | hcon
  · exact absurd rfl (isDigit_ne_newline (natChars_digits k '\n' hc))
  rcases List.mem_cons.mp hcon with hc | hcon
  · exact absurd hc.symm (by decide)
  rcases List.mem_append.mp hcon with hc | hcon
  · exact absurd (List.eq_of_mem_replicate hc) (by decide)
  rcases List.mem_cons.mp hcon with hc | hcon
  · exact absurd hc.symm (by decide)
  · obtain ⟨n, hsuf⟩ := parseHeadingLine_text_suffix hp
    rw [hsuf] at hcon
    exact originalLine_no_newline hmem (List.mem_of_mem_drop hcon)

theorem jsTrim_ne_empty_of_head {c : Char} {rest : List Char} {s : String}
    (hdata : s.data = c :: rest) (hc : isJsWs c = false) : ¬ jsTrim s = "" := by
  intro hcon
  have h2 : jsTrimList s.data = [] := congrArg String.data hcon
  rw [hdata] at h2
  exact jsTrimList_cons_ne_nil rest hc h2

theorem outline_editedLines (content : String) :
    ((splitNewlines (outlineText (parseHeadings content))).filter
        (fun l => ¬ jsTrim l = "")) =
      (parseHeadings content).map outlineLine := by
  rcases hhs : parseHeadings content with _ | ⟨h0, hrest⟩
  · show ((splitNewlines (outlineText [])).filter (fun l => ¬ jsTrim l = "")) = List.map _ []
    decide
  · have hnonnil : (parseHeadings content).map outlineLine ≠ [] := by
      rw [hhs]
      simp
    have hnonl : ∀ l ∈ (parseHeadings content).map outlineLine, '\n' ∉ l.data := by
      intro l hl
      obtain ⟨x, hx, hxl⟩ := List.mem_map.mp hl
      rw [← hxl]
      exact outlineLine_no_newline hx
    rw [← hhs]
    show ((splitNewlines (joinLines ((parseHeadings content).map outlineLine))).filter
        (fun l => ¬ jsTrim l = "")) = _
    rw [splitNewlines_joinLines _ hnonl hnonnil]
    rw [List.filter_eq_self]
    intro l hl
    obtain ⟨x, hx, hxl⟩ := List.mem_map.mp hl
    obtain ⟨_, _, _, k, _, hid⟩ := parseHeadings_mem hx
    have hdata := outlineLine_data x k hid
    rw [← hxl]
    simpa using jsTrim_ne_empty_of_head hdata (by decide)

theorem filterMap_eq_map_of_some {α β : Type} (f : α → Option β) (g : α → β)
    (l : List α) (h : ∀ x ∈ l, f x = some (g x)) : l.filterMap f = l.map g := by
  induction l with
  | nil => rfl
  | cons a t ih =>
    rw [List.filterMap_cons, h a (by simp), List.map_cons,
      ih (fun x hx => h x (by simp [hx]))]

theorem outline_editedHeadings (content : String) :
    editedHeadingsOf ((parseHeadings content).map outlineLine) =
      (parseHeadings content).map
        (fun h0 => ⟨h0.id, h0.level, jsTrim h0.text⟩ : HeadingInfo → EditedHeading) := by
  unfold editedHeadingsOf
  rw [List.filterMap_map]
  apply filterMap_eq_map_of_some
  intro x hx
  obtain ⟨_, _, hp, k, _, hid⟩ := parseHeadings_mem hx
  exact parseEditedLine_outlineLine x k hid hp

theorem mem_unique_of_pairwise_ne {l : List EditedHeading}
    (hpw : l.Pairwise (fun a b => a.id ≠ b.id)) {e x : EditedHeading}
    (he : e ∈ l) (hx : x ∈ l) (hid : x.id = e.id) : x = e := by
  induction l with
  | nil => simp at he
  | cons a t ih =>
    have hhead := (List.pairwise_cons.mp hpw).1
    rcases List.mem_cons.mp he with he0 | he0 <;> rcases List.mem_cons.mp hx with hx0 | hx0
    · rw [he0, hx0]
    · subst he0
      exact absurd hid.symm (hhead x hx0)
    · subst hx0
      exact absurd hid (hhead e he0)
    · exact ih (List.pairwise_cons.mp hpw).2 he0 hx0

theorem editMapFind_self (es : List EditedHeading)
    (hpw : es.Pairwise (fun a b => a.id ≠ b.id))
    (hnonew : ∀ x ∈ es, ¬ x.id = "NEW") {e : EditedHeading} (he : e ∈ es) :
    editMapFind es e.id = some e := by
  unfold editMapFind
  rw [List.filter_eq_self.mpr (fun a ha => by simpa using hnonew a ha)]
  rcases hf : es.reverse.find? (fun x => decide (x.id = e.id)) with _ | x
  · rw [List.find?_eq_none] at hf
    exact absurd (by simp) (hf e (List.mem_reverse.mpr he))
  · have hx : x ∈ es := List.mem_reverse.mp (List.mem_of_find?_eq_some hf)
    have hxid : x.id = e.id := by simpa using List.find?_some hf
    rw [hf]
    exact congrArg some (mem_unique_of_pairwise_ne hpw he hx hxid)

theorem applyLoop_no_change (es : List EditedHeading) (hs : List HeadingInfo) :
    ∀ (lines : List String) (rem : List Nat) (ch : Bool),
      (∀ h0 ∈ hs, hasEditedId es h0.id = true ∧
        ∃ e, editMapFind es h0.id = some e ∧
          lines[h0.line]? = some (rebuildLine e.level e.text)) →
      applyLoop es hs (lines, rem, ch) = (lines, rem, ch) := by
  induction hs with
  | nil => intro lines rem ch _; rfl
  | cons h t ih =>
    intro lines rem ch hcond
    obtain ⟨hhas, e, hfind, hget⟩ := hcond h (by simp)
    simp only [applyLoop]
    rw [if_pos hhas, hfind]
    dsimp only
    rw [if_pos hget]
    exact ih lines rem ch (fun h0 hh0 => hcond h0 (by simp [hh0]))

/-- C1, corrected: the round trip is a no-op exactly on documents whose
heading lines are already in the canonical shape the reconciler rebuilds -
marker run, a single space, text with no surrounding whitespace. Under that
precondition, reconciling the untouched outline text reports no changes and
returns the document unchanged. Without it the claim fails, because the
rebuilt line normalizes the separator and trims the text. -/
theorem C1_amended (content : String)
    (hcanon : ∀ h0 ∈ parseHeadings content,
      h0.originalLine = rebuildLine h0.level (jsTrim h0.text)) :
    (applyChanges (parseHeadings content)
        (outlineText (parseHeadings content)) content).changed = false ∧
    (applyChanges (parseHeadings content)
        (outlineText (parseHeadings content)) content).text = content := by
  unfold applyChanges
  rw [outline_editedLines content]
  have hes := outline_editedHeadings content
  have hpwid : ((parseHeadings content).map
      (fun h0 => ⟨h0.id, h0.level, jsTrim h0.text⟩ : HeadingInfo → EditedHeading)).Pairwise
      (fun a b => a.id ≠ b.id) := by
    rw [List.pairwise_map]
    exact parseHeadings_pairwise_id content
  have hnonew : ∀ x ∈ (parseHeadings content).map
      (fun h0 => ⟨h0.id, h0.level, jsTrim h0.text⟩ : HeadingInfo → EditedHeading),
      ¬ x.id = "NEW" := by
    intro x hx
    obtain ⟨h0, hh0, hx0⟩ := List.mem_map.mp hx
    rw [← hx0]
    exact parseHeadings_id_ne_NEW hh0
  have hcond : ∀ h0 ∈ parseHeadings content,
      hasEditedId (editedHeadingsOf ((parseHeadings content).map outlineLine)) h0.id = true ∧
      ∃ e, editMapFind (editedHeadingsOf ((parseHeadings content).map outlineLine)) h0.id =
          some e ∧
        (splitNewlines content)[h0.line]? = some (rebuildLine e.level e.text) := by
    intro h0 hh0
    rw [hes]
    constructor
    · unfold hasEditedId
      rw [List.any_eq_true]
      exact ⟨⟨h0.id, h0.level, jsTrim h0.text⟩, List.mem_map.mpr ⟨h0, hh0, rfl⟩, by simp⟩
    · refine ⟨⟨h0.id, h0.level, jsTrim h0.text⟩, ?_, ?_⟩
      · exact editMapFind_self _ hpwid hnonew (List.mem_map.mpr ⟨h0, hh0, rfl⟩)
      · have hget := (parseHeadings_mem hh0).2.1
        rw [List.get?_eq_getElem?] at hget
        rw [hget, hcanon h0 hh0]
  have hloopz := applyLoop_no_change
    (editedHeadingsOf ((parseHeadings content).map outlineLine)) (parseHeadings content)
    (splitNewlines content) [] false hcond
  have hnews : newHeadingsOf (editedHeadingsOf
      ((parseHeadings content).map outlineLine)) = [] := by
    rw [hes]
    unfold newHeadingsOf
    rw [List.filter_eq_nil_iff]
    intro a ha
    simpa using hnonew a ha
  unfold applyChangesFromLines
  dsimp only
  unfold applyLinesCore
  rw [hloopz, hnews]
  simp

theorem C1_witness :
    (applyChanges (parseHeadings "# A\nbody\n## B")
        (outlineText (parseHeadings "# A\nbody\n## B")) "# A\nbody\n## B").changed = false ∧
    (applyChanges (parseHeadings "# A\nbody\n## B")
        (outlineText (parseHeadings "# A\nbody\n## B")) "# A\nbody\n## B").text =
      "# A\nbody\n## B" :=
  C1_amended "# A\nbody\n## B" (by decide)

/-- C1, counterexample: on the one-line document hash, space, space, A, the
extraction output reconciled against the same document rewrites the heading
line to hash, space, A, so the operation reports a change and alters the
text, refuting the unrestricted round-trip claim. -/
theorem C1_counterexample :
    (applyChanges (parseHeadings "#  A")
        (outlineText (parseHeadings "#  A")) "#  A").changed = true ∧
    ¬ (applyChanges (parseHeadings "#  A")
        (outlineText (parseHeadings "#  A")) "#  A").text = "#  A" := by
  decide

/-! ### Claim C3: the reported counts -/

theorem keepAux_length_of_window (ls : List String) : ∀ (rem : List Nat) (j : Nat),
    rem.Pairwise (fun a b => a < b) → (∀ x ∈ rem, j ≤ x ∧ x < j + ls.length) →
    (keepAux rem ls j).length = ls.length - rem.length ∧ rem.length ≤ ls.length := by
  induction ls with
  | nil =>
    intro rem j _ hwin
    have hrem : rem = [] := by
      rw [List.eq_nil_iff_forall_not_mem]
      intro x hx
      have hx2 := hwin x hx
      simp only [List.length_nil] at hx2
      omega
    subst hrem
    exact ⟨rfl, Nat.le_refl 0⟩
  | cons l t ih =>
    intro rem j hpw hwin
    rcases rem with _ | ⟨r, rem2⟩
    · rw [keepAux_nil_rem]
      simp
    · have hhead := (List.pairwise_cons.mp hpw).1
      by_cases hj : j = r
      · subst hj
        have hmem : j ∈ j :: rem2 := by simp
        rw [keepAux, if_pos hmem]
        have hcg : keepAux (j :: rem2) t (j + 1) = keepAux rem2 t (j + 1) := by
          apply keepAux_congr
          intro k hk
          simp only [List.mem_cons]
          constructor
          · intro hc
            rcases hc with hc | hc
            · omega
            · exact hc
          · exact fun hc => Or.inr hc
        rw [hcg]
        have hrec := ih rem2 (j + 1) (List.pairwise_cons.mp hpw).2 ?_
        · have h1 := hrec.1
          have h2 := hrec.2
          constructor
          · rw [h1]
            simp only [List.length_cons]
            omega
          · simp only [List.length_cons]
            omega
        · intro x hx
          have h1 := hhead x hx
          have h2 := hwin x (by simp [hx])
          simp only [List.length_cons] at h2
          omega
      · have hnot : ¬ j ∈ r :: rem2 := by
          intro hc
          rcases List.mem_cons.mp hc with hc | hc
          · exact hj hc
          · have h1 := hhead j hc
            have h2 := hwin r (by simp)
            omega
        rw [keepAux, if_neg hnot]
        have hrec := ih (r :: rem2) (j + 1) hpw ?_
        · have h1 := hrec.1
          have h2 := hrec.2
          simp only [List.length_cons] at h1 h2 ⊢
          constructor
          · simp only [List.length_cons, h1]
            omega
          · omega
        · intro x hx
          have h2 := hwin x hx
          simp only [List.length_cons] at h2
          have hxj : ¬ x = j := fun hc => hnot (hc ▸ hx)
          omega

theorem deletedCount_eq_length_linesToRemove (content : String) (es : List EditedHeading) :
    deletedCount (parseHeadings content) es =
      (linesToRemove (parseHeadings content) es).length := by
  unfold deletedCount linesToRemove
  rw [List.length_map]
  have hnodup : ((parseHeadings content).map (fun h => h.id)).Nodup := by
    unfold List.Nodup
    rw [List.pairwise_map]
    exact parseHeadings_pairwise_id content
  rw [List.dedup_eq_self.mpr hnodup, List.filter_map, List.length_map]
  apply congrArg List.length
  apply List.filter_congr
  intro a _
  rfl

/-- C3, corrected: the reported deleted count equals the number of lines
actually removed and the reported added count equals the number of lines
actually appended, but the reported modified count is the number of distinct
non-NEW ids among the parsed edited entries - it also counts entries whose
id is unknown and entries identical to the current line, so it can exceed
the number of heading lines actually rewritten. -/
theorem C3_amended (content : String) (editedLines : List String) :
    (applyChangesFromLines (parseHeadings content) editedLines content).removed =
      (splitNewlines content).length -
        (linesAfterRemoval (parseHeadings content) (editedHeadingsOf editedLines)
          (splitNewlines content)).length ∧
    (applyChangesFromLines (parseHeadings content) editedLines content).added =
      (applyLines (parseHeadings content) editedLines (splitNewlines content)).length -
        (linesAfterRemoval (parseHeadings content) (editedHeadingsOf editedLines)
          (splitNewlines content)).length ∧
    (applyChangesFromLines (parseHeadings content) editedLines content).modified =
      ((((editedHeadingsOf editedLines).filter (fun e => ¬ e.id = "NEW")).map
        (fun e => e.id)).dedup).length := by
  have hpl := parseHeadings_pairwise_line content
  have hbound : ∀ h0 ∈ parseHeadings content, h0.line < (splitNewlines content).length :=
    fun h0 hh0 => (parseHeadings_mem hh0).1
  have hltrpw : (linesToRemove (parseHeadings content)
      (editedHeadingsOf editedLines)).Pairwise (fun a b => a < b) := by
    unfold linesToRemove
    rw [List.pairwise_map]
    exact hpl.filter _
  have hltrbound : ∀ x ∈ linesToRemove (parseHeadings content) (editedHeadingsOf editedLines),
      0 ≤ x ∧ x < 0 + (updAux (parseHeadings content) (editedHeadingsOf editedLines)
        (splitNewlines content) 0).length := by
    intro x hx
    unfold linesToRemove at hx
    obtain ⟨h0, hh0, hline⟩ := List.mem_map.mp hx
    rw [updAux_length]
    refine ⟨Nat.zero_le x, ?_⟩
    rw [Nat.zero_add, ← hline]
    exact hbound h0 (List.mem_of_mem_filter hh0)
  have hkeep := keepAux_length_of_window
    (updAux (parseHeadings content) (editedHeadingsOf editedLines) (splitNewlines content) 0)
    (linesToRemove (parseHeadings content) (editedHeadingsOf editedLines)) 0 hltrpw hltrbound
  have hlar := linesAfterRemoval_eq (parseHeadings content) (editedHeadingsOf editedLines)
    (splitNewlines content) hpl hbound
  have hudlen := updAux_length (parseHeadings content) (editedHeadingsOf editedLines)
    (splitNewlines content) 0
  have hlarlen : (linesAfterRemoval (parseHeadings content) (editedHeadingsOf editedLines)
      (splitNewlines content)).length =
      (splitNewlines content).length -
        (linesToRemove (parseHeadings content) (editedHeadingsOf editedLines)).length := by
    rw [hlar, hkeep.1, hudlen]
  have hlarle : (linesToRemove (parseHeadings content)
      (editedHeadingsOf editedLines)).length ≤ (splitNewlines content).length := by
    have := hkeep.2
    rwa [hudlen] at this
  refine ⟨?_, ?_, ?_⟩
  · show deletedCount (parseHeadings content) (editedHeadingsOf editedLines) = _
    rw [deletedCount_eq_length_linesToRemove, hlarlen]
    omega
  · show (newHeadingsOf (editedHeadingsOf editedLines)).length = _
    rw [show applyLines (parseHeadings content) editedLines (splitNewlines content) =
        linesAfterRemoval (parseHeadings content) (editedHeadingsOf editedLines)
          (splitNewlines content) ++
        (newHeadingsOf (editedHeadingsOf editedLines)).map
          (fun e => rebuildLine e.level e.text) from rfl]
    rw [List.length_append, List.length_map]
    omega
  · rfl

/-- C3, counterexample: editing only H1 to level two while keeping H2's line
byte-identical changes the document (line 0 only, as the output text shows),
yet the notice reports 2 modified because the count is the size of the edit
map, not the number of lines rewritten; the claim predicts 1. -/
theorem C3_counterexample :
    (applyChanges (parseHeadings "# A\nbody\n## B") "H1|## A2\nH2|## B"
        "# A\nbody\n## B").changed = true ∧
    (applyChanges (parseHeadings "# A\nbody\n## B") "H1|## A2\nH2|## B"
        "# A\nbody\n## B").text = "## A2\nbody\n## B" ∧
    (applyChanges (parseHeadings "# A\nbody\n## B") "H1|## A2\nH2|## B"
        "# A\nbody\n## B").modified = 2 ∧
    ¬ (applyChanges (parseHeadings "# A\nbody\n## B") "H1|## A2\nH2|## B"
        "# A\nbody\n## B").modified = 1 := by
  decide

end OutlineEditor
